import Mathlib

/-!
Verification of the detection post-processing pipeline of `mydetect.py`:
`letterbox`, `box_iou`, `xywh2xyxy` and `non_max_suppression`.

The floating-point numbers of the source are modelled by `ℚ` (exact
arithmetic); tensors are modelled by lists.  Library calls made by the
source (`torchvision.ops.nms`, `np.mod`, `cv2.resize`, python `round`)
are embedded with their documented semantics; each such definition carries
a comment naming the library operation it models.
-/

/-- Corner-form box `(x1, y1, x2, y2)`, one row of a `(n,4)` box tensor. -/
structure Box where
  x1 : ℚ
  y1 : ℚ
  x2 : ℚ
  y2 : ℚ
deriving DecidableEq, Repr

/-- The zero box, used as the out-of-range default when indexing box lists. -/
def box0 : Box := ⟨0, 0, 0, 0⟩

/-- `box_area` inside `box_iou`: `(box[2] - box[0]) * (box[3] - box[1])`. -/
def boxArea (b : Box) : ℚ := (b.x2 - b.x1) * (b.y2 - b.y1)

/-- x-axis overlap of two boxes, clamped at 0:
`(torch.min(box1[:, 2:], box2[:, 2:]) - torch.max(box1[:, :2], box2[:, :2])).clamp(0)`
restricted to the x coordinate. -/
def interW (a b : Box) : ℚ := max 0 (min a.x2 b.x2 - max a.x1 b.x1)

/-- y-axis overlap of two boxes, clamped at 0. -/
def interH (a b : Box) : ℚ := max 0 (min a.y2 b.y2 - max a.y1 b.y1)

/-- Intersection area: `.clamp(0).prod(2)`, the product of the per-axis overlaps. -/
def boxInter (a b : Box) : ℚ := interW a b * interH a b

/-- Scalar pairwise IoU, one entry of the matrix returned by `box_iou`:
`inter / (area1 + area2 - inter)`.  Division in `ℚ` is total with `q / 0 = 0`. -/
def iou1 (a b : Box) : ℚ := boxInter a b / (boxArea a + boxArea b - boxInter a b)

/-- `box_iou(box1, box2)`: the N×M matrix of pairwise IoU values. -/
def box_iou (box1 box2 : List Box) : List (List ℚ) :=
  box1.map fun a => box2.map fun b => iou1 a b

/-- A corner-form box in standard form: `x1 ≤ x2` and `y1 ≤ y2`
(the corner-form invariant of the spec's data model). -/
def WFBox (b : Box) : Prop := b.x1 ≤ b.x2 ∧ b.y1 ≤ b.y2

instance (b : Box) : Decidable (WFBox b) :=
  inferInstanceAs (Decidable (b.x1 ≤ b.x2 ∧ b.y1 ≤ b.y2))

lemma interW_comm (a b : Box) : interW a b = interW b a := by
  unfold interW; rw [min_comm a.x2 b.x2, max_comm a.x1 b.x1]

lemma interH_comm (a b : Box) : interH a b = interH b a := by
  unfold interH; rw [min_comm a.y2 b.y2, max_comm a.y1 b.y1]

lemma boxInter_comm (a b : Box) : boxInter a b = boxInter b a := by
  unfold boxInter; rw [interW_comm, interH_comm]

lemma iou1_comm (a b : Box) : iou1 a b = iou1 b a := by
  unfold iou1; rw [boxInter_comm, add_comm (boxArea a)]

lemma interW_nonneg (a b : Box) : 0 ≤ interW a b := le_max_left 0 _

lemma interH_nonneg (a b : Box) : 0 ≤ interH a b := le_max_left 0 _

lemma boxInter_nonneg (a b : Box) : 0 ≤ boxInter a b :=
  mul_nonneg (interW_nonneg a b) (interH_nonneg a b)

lemma interW_le_left (a b : Box) (ha : WFBox a) : interW a b ≤ a.x2 - a.x1 := by
  apply max_le
  · linarith [ha.1]
  · have h1 : min a.x2 b.x2 ≤ a.x2 := min_le_left _ _
    have h2 : a.x1 ≤ max a.x1 b.x1 := le_max_left _ _
    linarith

lemma interH_le_left (a b : Box) (ha : WFBox a) : interH a b ≤ a.y2 - a.y1 := by
  apply max_le
  · linarith [ha.2]
  · have h1 : min a.y2 b.y2 ≤ a.y2 := min_le_left _ _
    have h2 : a.y1 ≤ max a.y1 b.y1 := le_max_left _ _
    linarith

lemma boxArea_nonneg (a : Box) (ha : WFBox a) : 0 ≤ boxArea a :=
  mul_nonneg (by linarith [ha.1]) (by linarith [ha.2])

lemma boxInter_le_left (a b : Box) (ha : WFBox a) : boxInter a b ≤ boxArea a := by
  unfold boxInter boxArea
  exact mul_le_mul (interW_le_left a b ha) (interH_le_left a b ha)
    (interH_nonneg a b) (by linarith [ha.1])

lemma boxInter_le_right (a b : Box) (hb : WFBox b) : boxInter a b ≤ boxArea b := by
  rw [boxInter_comm]; exact boxInter_le_left b a hb

/-- The union `area1 + area2 - inter` dominates both areas. -/
lemma union_ge_left (a b : Box) (hb : WFBox b) :
    boxArea a ≤ boxArea a + boxArea b - boxInter a b := by
  have := boxInter_le_right a b hb
  linarith

lemma union_ge_right (a b : Box) (ha : WFBox a) :
    boxArea b ≤ boxArea a + boxArea b - boxInter a b := by
  have := boxInter_le_left a b ha
  linarith

lemma iou1_nonneg (a b : Box) (ha : WFBox a) (hb : WFBox b) : 0 ≤ iou1 a b := by
  unfold iou1
  apply div_nonneg (boxInter_nonneg a b)
  have h1 := union_ge_left a b hb
  have h2 := boxArea_nonneg a ha
  linarith

lemma iou1_le_one (a b : Box) (ha : WFBox a) (hb : WFBox b) : iou1 a b ≤ 1 := by
  unfold iou1
  set d := boxArea a + boxArea b - boxInter a b with hd
  have hdnn : 0 ≤ d := le_trans (boxArea_nonneg a ha) (union_ge_left a b hb)
  have hnum : boxInter a b ≤ d := by
    have h1 := boxInter_le_left a b ha
    have h2 := boxInter_le_right a b hb
    simp only [hd]; linarith
  rcases eq_or_lt_of_le hdnn with h0 | hpos
  · have : boxInter a b = 0 := by
      have := boxInter_nonneg a b
      linarith [hnum, h0.symm]
    rw [this, zero_div]; norm_num
  · exact (div_le_one hpos).mpr hnum

lemma iou1_self (a : Box) (ha : WFBox a) (hpos : 0 < boxArea a) : iou1 a a = 1 := by
  have hw : interW a a = a.x2 - a.x1 := by
    unfold interW; rw [min_self, max_self]
    exact max_eq_right (by linarith [ha.1])
  have hh : interH a a = a.y2 - a.y1 := by
    unfold interH; rw [min_self, max_self]
    exact max_eq_right (by linarith [ha.2])
  have hinter : boxInter a a = boxArea a := by
    unfold boxInter boxArea; rw [hw, hh]
  unfold iou1
  rw [hinter]
  have : boxArea a + boxArea a - boxArea a = boxArea a := by ring
  rw [this, div_self (ne_of_gt hpos)]

lemma union_pos (a b : Box) (ha : WFBox a) (hb : WFBox b)
    (h : ¬(boxArea a = 0 ∧ boxArea b = 0)) :
    0 < boxArea a + boxArea b - boxInter a b := by
  have hA := boxArea_nonneg a ha
  have hB := boxArea_nonneg b hb
  have h1 := union_ge_left a b hb
  have h2 := union_ge_right a b ha
  rcases eq_or_lt_of_le hA with hA0 | hApos
  · rcases eq_or_lt_of_le hB with hB0 | hBpos
    · exact absurd ⟨hA0.symm, hB0.symm⟩ h
    · linarith
  · linarith

/-- **C5.** `box_iou` properties: every entry of the returned IoU matrix lies in
[0,1]; the scalar IoU is symmetric; it equals 1 on a non-degenerate box paired
with itself; the union denominator is positive whenever not both boxes are
degenerate (so the division is well-defined). -/
theorem spec_C5 (A B : List Box) (hA : ∀ a ∈ A, WFBox a) (hB : ∀ b ∈ B, WFBox b) :
    (∀ row ∈ box_iou A B, ∀ v ∈ row, 0 ≤ v ∧ v ≤ 1) ∧
    (∀ a ∈ A, ∀ b ∈ B,
      iou1 a b = iou1 b a ∧
      (0 < boxArea a → iou1 a a = 1) ∧
      (¬(boxArea a = 0 ∧ boxArea b = 0) →
        0 < boxArea a + boxArea b - boxInter a b)) := by
  constructor
  · intro row hrow v hv
    unfold box_iou at hrow
    rcases List.mem_map.mp hrow with ⟨a, haA, rfl⟩
    rcases List.mem_map.mp hv with ⟨b, hbB, rfl⟩
    exact ⟨iou1_nonneg a b (hA a haA) (hB b hbB), iou1_le_one a b (hA a haA) (hB b hbB)⟩
  · intro a haA b hbB
    exact ⟨iou1_comm a b,
      fun hpos => iou1_self a (hA a haA) hpos,
      fun h => union_pos a b (hA a haA) (hB b hbB) h⟩

/-- Witness for C5 at concrete boxes. -/
theorem spec_C5_witness :
    (∀ row ∈ box_iou [⟨0, 0, 2, 2⟩] [⟨1, 1, 3, 3⟩], ∀ v ∈ row, 0 ≤ v ∧ v ≤ 1) ∧
    (∀ a ∈ [(⟨0, 0, 2, 2⟩ : Box)], ∀ b ∈ [(⟨1, 1, 3, 3⟩ : Box)],
      iou1 a b = iou1 b a ∧
      (0 < boxArea a → iou1 a a = 1) ∧
      (¬(boxArea a = 0 ∧ boxArea b = 0) →
        0 < boxArea a + boxArea b - boxInter a b)) :=
  spec_C5 [⟨0, 0, 2, 2⟩] [⟨1, 1, 3, 3⟩] (by decide) (by decide)

/-! ### Letterbox resizer -/

/-- `Rat.floor` agrees with the `FloorRing` floor on `ℚ` (kept as a rewrite
bridge because `Rat.floor` evaluates by `decide`). -/
lemma ratFloor_eq (q : ℚ) : (Rat.floor q : ℤ) = ⌊q⌋ := by
  rw [Rat.floor_def', Rat.floor_def]

/-- Python 3 `round` (round half to even) on an exact rational, as applied by
`int(round(.))` in `letterbox`. -/
def pyRound (q : ℚ) : ℤ :=
  let f := Rat.floor q
  let r := q - (f : ℚ)
  if r < 1/2 then f
  else if 1/2 < r then f + 1
  else if f % 2 = 0 then f else f + 1

lemma pyRound_int_add (m : ℤ) (x : ℚ) (hhalf : ¬ (x - (⌊x⌋ : ℚ) = 1/2)) :
    pyRound ((m : ℚ) + x) = m + pyRound x := by
  unfold pyRound
  simp only [ratFloor_eq]
  rw [Int.floor_int_add]
  have hr : (m : ℚ) + x - ((m + ⌊x⌋ : ℤ) : ℚ) = x - (⌊x⌋ : ℚ) := by push_cast; ring
  rw [hr]
  rcases lt_trichotomy (x - (⌊x⌋ : ℚ)) (1/2) with hlt | heq | hgt
  · rw [if_pos hlt, if_pos hlt]
  · exact absurd heq hhalf
  · rw [if_neg (not_lt.mpr (le_of_lt hgt)), if_neg (not_lt.mpr (le_of_lt hgt)),
      if_pos hgt, if_pos hgt]
    ring

unseal Rat.add Rat.mul Rat.inv Rat.sub in
/-- `int(round(d/2 - 0.1)) + int(round(d/2 + 0.1)) = d` for any integer total
padding `d`, and the two sides differ by at most one pixel. -/
lemma pad_split (d : ℤ) :
    pyRound ((d : ℚ)/2 - 1/10) + pyRound ((d : ℚ)/2 + 1/10) = d ∧
    (pyRound ((d : ℚ)/2 + 1/10) - pyRound ((d : ℚ)/2 - 1/10) = 0 ∨
     pyRound ((d : ℚ)/2 + 1/10) - pyRound ((d : ℚ)/2 - 1/10) = 1) := by
  have hneg : ¬ ((-(1/10) : ℚ) - (⌊(-(1/10) : ℚ)⌋ : ℚ) = 1/2) := by
    rw [← ratFloor_eq]; decide
  have hpos : ¬ ((1/10 : ℚ) - (⌊(1/10 : ℚ)⌋ : ℚ) = 1/2) := by
    rw [← ratFloor_eq]; decide
  have h25 : ¬ ((2/5 : ℚ) - (⌊(2/5 : ℚ)⌋ : ℚ) = 1/2) := by
    rw [← ratFloor_eq]; decide
  have h35 : ¬ ((3/5 : ℚ) - (⌊(3/5 : ℚ)⌋ : ℚ) = 1/2) := by
    rw [← ratFloor_eq]; decide
  rcases Int.even_or_odd d with ⟨m, hm⟩ | ⟨m, hm⟩
  · have e1 : (d : ℚ)/2 - 1/10 = (m : ℚ) + (-(1/10)) := by rw [hm]; push_cast; ring
    have e2 : (d : ℚ)/2 + 1/10 = (m : ℚ) + (1/10) := by rw [hm]; push_cast; ring
    rw [e1, e2, pyRound_int_add m _ hneg, pyRound_int_add m _ hpos]
    have v1 : pyRound (-(1/10) : ℚ) = 0 := by decide
    have v2 : pyRound (1/10 : ℚ) = 0 := by decide
    rw [v1, v2]
    omega
  · have e1 : (d : ℚ)/2 - 1/10 = (m : ℚ) + (2/5) := by rw [hm]; push_cast; ring
    have e2 : (d : ℚ)/2 + 1/10 = (m : ℚ) + (3/5) := by rw [hm]; push_cast; ring
    rw [e1, e2, pyRound_int_add m _ h25, pyRound_int_add m _ h35]
    have v1 : pyRound (2/5 : ℚ) = 0 := by decide
    have v2 : pyRound (3/5 : ℚ) = 1 := by decide
    rw [v1, v2]
    omega


/-- Result of `letterbox`: the geometry of the output image.  The pixel content
(`cv2.resize` with linear interpolation, `cv2.copyMakeBorder` with the constant
pad color) is abstracted away; `unpadW × unpadH` is the size `cv2.resize` is
asked to produce, and the output size adds the four border extents. -/
structure LetterboxResult where
  unpadW : ℤ
  unpadH : ℤ
  outW : ℤ
  outH : ℤ
  ratioW : ℚ
  ratioH : ℚ
  dw : ℚ
  dh : ℚ
  top : ℤ
  bottom : ℤ
  left : ℤ
  right : ℤ
deriving DecidableEq, Repr

/-! Each local variable of the python function `letterbox` becomes a named
definition (`lb...`), so that the final record stays small. -/

/-- `r = min(new_shape[0] / shape[0], new_shape[1] / shape[1])`. -/
def lbR0 (h w newH newW : ℕ) : ℚ := min ((newH : ℚ) / (h : ℚ)) ((newW : ℚ) / (w : ℚ))

/-- `if not scaleup: r = min(r, 1.0)`. -/
def lbR (h w newH newW : ℕ) (scaleup : Bool) : ℚ :=
  if scaleup then lbR0 h w newH newW else min (lbR0 h w newH newW) 1

/-- `new_unpad = int(round(shape[1] * r)), int(round(shape[0] * r))`, width. -/
def lbUw (h w newH newW : ℕ) (scaleup : Bool) : ℤ :=
  pyRound ((w : ℚ) * lbR h w newH newW scaleup)

/-- `new_unpad`, height component. -/
def lbUh (h w newH newW : ℕ) (scaleup : Bool) : ℤ :=
  pyRound ((h : ℚ) * lbR h w newH newW scaleup)

/-- `dw = new_shape[1] - new_unpad[0]` before the auto/scaleFill branch. -/
def lbDw0 (h w newH newW : ℕ) (scaleup : Bool) : ℤ :=
  (newW : ℤ) - lbUw h w newH newW scaleup

/-- `dh = new_shape[0] - new_unpad[1]` before the auto/scaleFill branch. -/
def lbDh0 (h w newH newW : ℕ) (scaleup : Bool) : ℤ :=
  (newH : ℤ) - lbUh h w newH newW scaleup

/-- Width padding after the `if auto ... elif scaleFill ...` branch;
`np.mod` on integers is `Int.emod` (`%`). -/
def lbDwq (h w newH newW : ℕ) (auto scaleFill scaleup : Bool) (stride : ℕ) : ℚ :=
  if auto then ((lbDw0 h w newH newW scaleup % (stride : ℤ) : ℤ) : ℚ)
  else if scaleFill then 0 else (lbDw0 h w newH newW scaleup : ℚ)

/-- Height padding after the `if auto ... elif scaleFill ...` branch. -/
def lbDhq (h w newH newW : ℕ) (auto scaleFill scaleup : Bool) (stride : ℕ) : ℚ :=
  if auto then ((lbDh0 h w newH newW scaleup % (stride : ℤ) : ℤ) : ℚ)
  else if scaleFill then 0 else (lbDh0 h w newH newW scaleup : ℚ)

/-- Width `cv2.resize` is asked for (`new_unpad`, overridden by `scaleFill`). -/
def lbUnpadW (h w newH newW : ℕ) (auto scaleFill scaleup : Bool) : ℤ :=
  if auto then lbUw h w newH newW scaleup
  else if scaleFill then (newW : ℤ) else lbUw h w newH newW scaleup

/-- Height `cv2.resize` is asked for. -/
def lbUnpadH (h w newH newW : ℕ) (auto scaleFill scaleup : Bool) : ℤ :=
  if auto then lbUh h w newH newW scaleup
  else if scaleFill then (newH : ℤ) else lbUh h w newH newW scaleup

/-- `letterbox(im, new_shape, color, auto, scaleFill, scaleup, stride)` of
`mydetect.py`.  `h × w` is the input image shape, `(newH, newW)` the requested
shape.  `dw /= 2; dh /= 2`, then `top, bottom = int(round(dh - 0.1)),
int(round(dh + 0.1))` and likewise for `left, right`; the output size is the
resized size plus the two border extents of each axis. -/
def letterbox (h w newH newW : ℕ) (auto scaleFill scaleup : Bool) (stride : ℕ) :
    LetterboxResult :=
  { unpadW := lbUnpadW h w newH newW auto scaleFill scaleup
    unpadH := lbUnpadH h w newH newW auto scaleFill scaleup
    outW := lbUnpadW h w newH newW auto scaleFill scaleup
      + pyRound (lbDwq h w newH newW auto scaleFill scaleup stride / 2 - 1/10)
      + pyRound (lbDwq h w newH newW auto scaleFill scaleup stride / 2 + 1/10)
    outH := lbUnpadH h w newH newW auto scaleFill scaleup
      + pyRound (lbDhq h w newH newW auto scaleFill scaleup stride / 2 - 1/10)
      + pyRound (lbDhq h w newH newW auto scaleFill scaleup stride / 2 + 1/10)
    ratioW := if auto then lbR h w newH newW scaleup
      else if scaleFill then (newW : ℚ) / (w : ℚ) else lbR h w newH newW scaleup
    ratioH := if auto then lbR h w newH newW scaleup
      else if scaleFill then (newH : ℚ) / (h : ℚ) else lbR h w newH newW scaleup
    dw := lbDwq h w newH newW auto scaleFill scaleup stride / 2
    dh := lbDhq h w newH newW auto scaleFill scaleup stride / 2
    top := pyRound (lbDhq h w newH newW auto scaleFill scaleup stride / 2 - 1/10)
    bottom := pyRound (lbDhq h w newH newW auto scaleFill scaleup stride / 2 + 1/10)
    left := pyRound (lbDwq h w newH newW auto scaleFill scaleup stride / 2 - 1/10)
    right := pyRound (lbDwq h w newH newW auto scaleFill scaleup stride / 2 + 1/10) }

/-- Padding an integer amount `u` up by `(N - u) mod stride` lands on a value
congruent to `N` modulo `stride`; in particular it is divisible by `stride`
whenever `N` is. -/
lemma pad_mod_dvd (S N u : ℤ) (hN : S ∣ N) : S ∣ (u + (N - u) % S) := by
  have hdef : (N - u) % S = (N - u) - S * ((N - u) / S) := Int.emod_def _ _
  have he : u + (N - u) % S = N - S * ((N - u) / S) := by rw [hdef]; ring
  rw [he]
  exact dvd_sub hN (Dvd.intro _ rfl)

/-- Auto-mode axis: adding the two rounded half-paddings of `(N - u) % S` to
`u` gives a value divisible by `S` whenever `N` is. -/
lemma axis_dvd (S N u : ℤ) (hN : S ∣ N) :
    S ∣ (u + pyRound ((((N - u) % S : ℤ) : ℚ)/2 - 1/10)
           + pyRound ((((N - u) % S : ℤ) : ℚ)/2 + 1/10)) := by
  obtain ⟨hsum, -⟩ := pad_split ((N - u) % S)
  have he : u + pyRound ((((N - u) % S : ℤ) : ℚ)/2 - 1/10)
      + pyRound ((((N - u) % S : ℤ) : ℚ)/2 + 1/10) = u + (N - u) % S := by omega
  rw [he]
  exact pad_mod_dvd S N u hN

/-- Auto-mode axis: the stride-reduced padding never shrinks the image. -/
lemma axis_le (S N u : ℤ) (hS : S ≠ 0) :
    u ≤ u + pyRound ((((N - u) % S : ℤ) : ℚ)/2 - 1/10)
          + pyRound ((((N - u) % S : ℤ) : ℚ)/2 + 1/10) := by
  obtain ⟨hsum, -⟩ := pad_split ((N - u) % S)
  have := Int.emod_nonneg (N - u) hS
  omega

/-- Full-padding axis: the two rounded half-paddings of `N - u` restore `N`. -/
lemma axis_exact (N u : ℤ) :
    u + pyRound (((N - u : ℤ) : ℚ)/2 - 1/10)
      + pyRound (((N - u : ℤ) : ℚ)/2 + 1/10) = N := by
  obtain ⟨hsum, -⟩ := pad_split (N - u)
  omega

/-- Zero-padding axis (`scaleFill`): both rounded half-paddings of 0 are 0. -/
lemma axis_zero :
    pyRound ((0 : ℚ)/2 - 1/10) = 0 ∧ pyRound ((0 : ℚ)/2 + 1/10) = 0 := by
  obtain ⟨hsum, hdiff⟩ := pad_split 0
  rw [Int.cast_zero] at hsum hdiff
  omega

/-- The two sides of one axis differ by at most one pixel. -/
lemma axis_diff (d : ℤ) :
    pyRound ((d : ℚ)/2 + 1/10) - pyRound ((d : ℚ)/2 - 1/10) = 0 ∨
    pyRound ((d : ℚ)/2 + 1/10) - pyRound ((d : ℚ)/2 - 1/10) = 1 :=
  (pad_split d).2

/-- **C4 (amended).** For positive-size images: with auto mode off the output
dimensions equal the requested target exactly; with auto mode on each output
dimension is no smaller than the scaled image and is a multiple of `stride`
whenever the corresponding target dimension is a multiple of `stride` (the
unconditional multiple-of-stride claim fails, see the counterexample); the two
border extents of each axis always differ by at most one pixel. -/
theorem spec_C4_amended (h w newH newW : ℕ) (auto scaleFill scaleup : Bool)
    (stride : ℕ) (hh : 0 < h) (hw : 0 < w) (hstride : 0 < stride)
    (L : LetterboxResult)
    (hL : L = letterbox h w newH newW auto scaleFill scaleup stride) :
    (auto = false → L.outH = (newH : ℤ) ∧ L.outW = (newW : ℤ)) ∧
    (auto = true →
      ((stride : ℤ) ∣ (newH : ℤ) → (stride : ℤ) ∣ L.outH) ∧
      ((stride : ℤ) ∣ (newW : ℤ) → (stride : ℤ) ∣ L.outW) ∧
      L.unpadH ≤ L.outH ∧ L.unpadW ≤ L.outW) ∧
    (L.bottom - L.top = 0 ∨ L.bottom - L.top = 1) ∧
    (L.right - L.left = 0 ∨ L.right - L.left = 1) := by
  have hSne : ((stride : ℤ)) ≠ 0 := by exact_mod_cast hstride.ne'
  subst hL
  cases auto with
  | true =>
    refine ⟨?_, ?_, ?_, ?_⟩
    · intro hc
      exact absurd hc (by decide)
    · intro _
      refine ⟨?_, ?_, ?_, ?_⟩
      · intro hd
        exact axis_dvd (stride : ℤ) (newH : ℤ) (lbUh h w newH newW scaleup) hd
      · intro hd
        exact axis_dvd (stride : ℤ) (newW : ℤ) (lbUw h w newH newW scaleup) hd
      · exact axis_le (stride : ℤ) (newH : ℤ) (lbUh h w newH newW scaleup) hSne
      · exact axis_le (stride : ℤ) (newW : ℤ) (lbUw h w newH newW scaleup) hSne
    · exact axis_diff (lbDh0 h w newH newW scaleup % (stride : ℤ))
    · exact axis_diff (lbDw0 h w newH newW scaleup % (stride : ℤ))
  | false =>
    cases scaleFill with
    | false =>
      refine ⟨?_, ?_, ?_, ?_⟩
      · intro _
        exact ⟨axis_exact (newH : ℤ) (lbUh h w newH newW scaleup),
               axis_exact (newW : ℤ) (lbUw h w newH newW scaleup)⟩
      · intro hc
        exact absurd hc (by decide)
      · exact axis_diff (lbDh0 h w newH newW scaleup)
      · exact axis_diff (lbDw0 h w newH newW scaleup)
    | true =>
      obtain ⟨hz1, hz2⟩ := axis_zero
      refine ⟨?_, ?_, ?_, ?_⟩
      · intro _
        constructor
        · show (newH : ℤ) + pyRound ((0 : ℚ)/2 - 1/10) + pyRound ((0 : ℚ)/2 + 1/10) = (newH : ℤ)
          omega
        · show (newW : ℤ) + pyRound ((0 : ℚ)/2 - 1/10) + pyRound ((0 : ℚ)/2 + 1/10) = (newW : ℤ)
          omega
      · intro hc
        exact absurd hc (by decide)
      · show pyRound ((0 : ℚ)/2 + 1/10) - pyRound ((0 : ℚ)/2 - 1/10) = 0 ∨
          pyRound ((0 : ℚ)/2 + 1/10) - pyRound ((0 : ℚ)/2 - 1/10) = 1
        omega
      · show pyRound ((0 : ℚ)/2 + 1/10) - pyRound ((0 : ℚ)/2 - 1/10) = 0 ∨
          pyRound ((0 : ℚ)/2 + 1/10) - pyRound ((0 : ℚ)/2 - 1/10) = 1
        omega

unseal Rat.add Rat.mul Rat.inv Rat.sub in
/-- **C4 counterexample.** A 100×100 image letterboxed to target (100,100) with
auto mode on and stride 32 yields a 100×100 output: the output dimension is not
a multiple of the stride, refuting the claim that in auto mode each output
dimension is a stride multiple. -/
theorem spec_C4_counterexample :
    (letterbox 100 100 100 100 true false true 32).outH = 100 ∧
    (letterbox 100 100 100 100 true false true 32).outW = 100 ∧
    ¬ ((32 : ℤ) ∣ (letterbox 100 100 100 100 true false true 32).outH) := by
  refine ⟨by decide, by decide, ?_⟩
  intro hdvd
  have h100 : (letterbox 100 100 100 100 true false true 32).outH = 100 := by decide
  rw [h100] at hdvd
  omega

unseal Rat.add Rat.mul Rat.inv Rat.sub in
/-- Witness for C4 (amended) at a concrete 400×600 image and 640×640 target. -/
theorem spec_C4_amended_witness :
    (false = false →
      (letterbox 400 600 640 640 false false true 32).outH = ((640 : ℕ) : ℤ) ∧
      (letterbox 400 600 640 640 false false true 32).outW = ((640 : ℕ) : ℤ)) ∧
    (false = true →
      (((32 : ℕ) : ℤ) ∣ ((640 : ℕ) : ℤ) →
        ((32 : ℕ) : ℤ) ∣ (letterbox 400 600 640 640 false false true 32).outH) ∧
      (((32 : ℕ) : ℤ) ∣ ((640 : ℕ) : ℤ) →
        ((32 : ℕ) : ℤ) ∣ (letterbox 400 600 640 640 false false true 32).outW) ∧
      (letterbox 400 600 640 640 false false true 32).unpadH ≤
        (letterbox 400 600 640 640 false false true 32).outH ∧
      (letterbox 400 600 640 640 false false true 32).unpadW ≤
        (letterbox 400 600 640 640 false false true 32).outW) ∧
    ((letterbox 400 600 640 640 false false true 32).bottom -
        (letterbox 400 600 640 640 false false true 32).top = 0 ∨
     (letterbox 400 600 640 640 false false true 32).bottom -
        (letterbox 400 600 640 640 false false true 32).top = 1) ∧
    ((letterbox 400 600 640 640 false false true 32).right -
        (letterbox 400 600 640 640 false false true 32).left = 0 ∨
     (letterbox 400 600 640 640 false false true 32).right -
        (letterbox 400 600 640 640 false false true 32).left = 1) :=
  spec_C4_amended 400 600 640 640 false false true 32
    (by decide) (by decide) (by decide) _ rfl

/-! ### Non-maximum suppression -/

/-- One anchor row of the prediction tensor: `(cx, cy, w, h, objectness,
class scores)` — the last dimension of `prediction[B, N, 5+C]`. -/
structure RawRow where
  cx : ℚ
  cy : ℚ
  w : ℚ
  h : ℚ
  obj : ℚ
  cls : List ℚ
deriving DecidableEq, Repr

/-- Default row for out-of-range indexing. -/
def row0 : RawRow := ⟨0, 0, 0, 0, 0, []⟩

/-- One output row `(x1, y1, x2, y2, conf, cls)` of `non_max_suppression`. -/
structure Detection where
  box : Box
  conf : ℚ
  cls : ℚ
deriving DecidableEq, Repr

/-- Default detection for out-of-range indexing. -/
def det0 : Detection := ⟨box0, 0, 0⟩

/-- `xywh2xyxy` applied to one center-form box `(x, y, w, h)`. -/
def xywh2xyxy (r : RawRow) : Box :=
  ⟨r.cx - r.w / 2, r.cy - r.h / 2, r.cx + r.w / 2, r.cy + r.h / 2⟩

/-- `x[:, 5:].max(1)`: maximum class score with the first index attaining it
(torch returns the first maximal index on ties).  Empty input yields `(0, 0)`;
a zero-class row can then never pass the strict confidence gate. -/
def maxWithIdx : List ℚ → ℚ × ℕ
  | [] => (0, 0)
  | [a] => (a, 0)
  | a :: b :: rest =>
    let p := maxWithIdx (b :: rest)
    if p.1 > a then (p.1, p.2 + 1) else (a, 0)

/-- Stable insertion step for the descending sort of indices by score. -/
def insertIdxDesc (score : ℕ → ℚ) (i : ℕ) : List ℕ → List ℕ
  | [] => [i]
  | j :: rest =>
    if score j ≤ score i then i :: j :: rest else j :: insertIdxDesc score i rest

/-- Indices `0..n-1` stably sorted by decreasing `score`: the order in which
`torchvision.ops.nms` and `argsort(descending=True)` visit candidates (ties
keep the original candidate order). -/
def sortIdxDesc (score : ℕ → ℚ) (n : ℕ) : List ℕ :=
  (List.range n).foldr (insertIdxDesc score) []

/-- Greedy suppression loop of `torchvision.ops.nms`: visit candidates in
decreasing-score order and keep one iff its IoU with every already-kept box is
`≤ iouT` (the library removes boxes whose IoU with a kept box strictly exceeds
the threshold).  `kept` holds kept indices newest first; the result restores
the visiting (score-descending) order. -/
def nmsKeepAux (box : ℕ → Box) (iouT : ℚ) : List ℕ → List ℕ → List ℕ
  | [], kept => kept.reverse
  | i :: rest, kept =>
    if kept.all (fun j => decide (iou1 (box j) (box i) ≤ iouT)) then
      nmsKeepAux box iouT rest (i :: kept)
    else
      nmsKeepAux box iouT rest kept

/-- `torchvision.ops.nms(boxes, scores, iou_thres)`: kept indices in
decreasing-score order. -/
def nms (boxes : List Box) (scores : List ℚ) (iouT : ℚ) : List ℕ :=
  nmsKeepAux (fun i => boxes.getD i box0) iouT
    (sortIdxDesc (fun i => scores.getD i 0) boxes.length) []

/-- One label row `(class, x, y, w, h)` of the optional `labels` argument. -/
structure LabelRow where
  cls : ℕ
  cx : ℚ
  cy : ℚ
  w : ℚ
  h : ℚ
deriving DecidableEq, Repr

/-- One-hot class-score vector: `v[range(len(l)), l[:, 0].long() + 5] = 1.0`. -/
def oneHot : ℕ → ℕ → List ℚ
  | 0, _ => []
  | n+1, 0 => 1 :: List.replicate n 0
  | n+1, k+1 => 0 :: oneHot n k

/-- An autolabelling row: box from `l[:, 1:5]`, conf 1, one-hot class. -/
def labelToRow (nc : ℕ) (l : LabelRow) : RawRow :=
  ⟨l.cx, l.cy, l.w, l.h, 1, oneHot nc l.cls⟩

/-- `x = x[xc[xi]]`: the objectness gate `prediction[..., 4] > conf_thres`,
then `torch.cat((x, v), 0)` with the label rows (concatenating nothing when
there are no labels for this image). -/
def gatedRows (conf_thres : ℚ) (nc : ℕ) (lab : List LabelRow) (rows : List RawRow) :
    List RawRow :=
  rows.filter (fun r => decide (conf_thres < r.obj)) ++ lab.map (labelToRow nc)

/-- `x[:, 5:] *= x[:, 4:5]`: fuse the class scores with the objectness. -/
def fuseRow (r : RawRow) : RawRow :=
  { r with cls := r.cls.map (fun s => s * r.obj) }

/-- Candidate detection matrix (`nx6`) built from the gated rows: fuse
confidences, convert boxes, select labels (best class only, or every class
above threshold in multi-label mode; both gates are strict), then apply the
class allowlist. -/
def candidates (conf_thres : ℚ) (classes : Option (List ℚ)) (multi_label : Bool)
    (x : List RawRow) : List Detection :=
  let xf := x.map fuseRow
  let dets : List Detection :=
    if multi_label then
      xf.flatMap (fun r =>
        (r.cls.enum).filterMap (fun p =>
          if conf_thres < p.2 then some ⟨xywh2xyxy r, p.2, (p.1 : ℚ)⟩ else none))
    else
      xf.filterMap (fun r =>
        let p := maxWithIdx r.cls
        if conf_thres < p.1 then some ⟨xywh2xyxy r, p.1, (p.2 : ℚ)⟩ else none)
  match classes with
  | none => dets
  | some cs => dets.filter (fun d => decide (d.cls ∈ cs))

/-- `c = x[:, 5:6] * (0 if agnostic else max_wh)` with `max_wh = 4096`. -/
def classOffset (agnostic : Bool) (c : ℚ) : ℚ := c * (if agnostic then 0 else 4096)

/-- `boxes = x[:, :4] + c`: a box shifted by its class offset. -/
def offsetBox (b : Box) (c : ℚ) : Box := ⟨b.x1 + c, b.y1 + c, b.x2 + c, b.y2 + c⟩

/-- The box a candidate presents to the suppression pass. -/
def nmsBoxOf (agnostic : Bool) (d : Detection) : Box :=
  offsetBox d.box (classOffset agnostic d.cls)

/-- `x[x[:, 4].argsort(descending=True)[:max_nms]]`: the `max_nms = 30000`
overflow guard (argsort modelled as a stable descending sort). -/
def truncTop (dets : List Detection) : List Detection :=
  ((sortIdxDesc (fun i => (dets.getD i det0).conf) dets.length).take 30000).map
    (fun i => dets.getD i det0)

/-- The body of the `for xi, x in enumerate(prediction)` loop for one image,
with merge mode disabled (the source hardcodes `merge = False`, so the merge
branch is dead code).  The two source early-exits (`if not x.shape[0]:
continue`, `if not n: continue`) both yield the empty list, and
`i = i[:max_det]` applied only when `i.shape[0] > max_det` equals an
unconditional `take max_det`. -/
def processImage (conf_thres iou_thres : ℚ) (classes : Option (List ℚ))
    (agnostic multi_label : Bool) (lab : List LabelRow) (max_det nc : ℕ)
    (rows : List RawRow) : List Detection :=
  let xg := gatedRows conf_thres nc lab rows
  if xg.isEmpty then []
  else
    let dets := candidates conf_thres classes (multi_label && decide (1 < nc)) xg
    if dets.isEmpty then []
    else
      let dets2 := if dets.length > 30000 then truncTop dets else dets
      let keep := nms (dets2.map (nmsBoxOf agnostic)) (dets2.map (fun d => d.conf)) iou_thres
      (keep.take max_det).map (fun k => dets2.getD k det0)

/-- `nc = prediction.shape[2] - 5`: the class count read off the tensor layout
(the class-score length of the rows). -/
def predNc (prediction : List (List RawRow)) : ℕ :=
  (((prediction.headD []).headD row0).cls).length

/-- `non_max_suppression(prediction, conf_thres, iou_thres, classes, agnostic,
multi_label, labels, max_det)` of `mydetect.py`.  The two threshold asserts
become the error branches (checked before any image is processed);
`multi_label &= nc > 1` is applied inside `processImage`. -/
def non_max_suppression (prediction : List (List RawRow)) (conf_thres iou_thres : ℚ)
    (classes : Option (List ℚ)) (agnostic multi_label : Bool)
    (labels : List (List LabelRow)) (max_det : ℕ) :
    Except String (List (List Detection)) :=
  if 0 ≤ conf_thres ∧ conf_thres ≤ 1 then
    if 0 ≤ iou_thres ∧ iou_thres ≤ 1 then
      Except.ok ((List.range prediction.length).map (fun xi =>
        processImage conf_thres iou_thres classes agnostic multi_label
          (labels.getD xi []) max_det (predNc prediction) (prediction.getD xi [])))
    else Except.error ("Invalid IoU threshold")
  else Except.error ("Invalid Confidence threshold")

/-! ### Sorting and suppression lemmas -/

lemma insertIdxDesc_perm (sc : ℕ → ℚ) (i : ℕ) :
    ∀ l : List ℕ, List.Perm (insertIdxDesc sc i l) (i :: l) := by
  intro l
  induction l with
  | nil => simp [insertIdxDesc]
  | cons j rest ih =>
    unfold insertIdxDesc
    by_cases hc : sc j ≤ sc i
    · rw [if_pos hc]
    · rw [if_neg hc]
      exact (List.Perm.cons j ih).trans (List.Perm.swap i j rest)

lemma sortIdxDesc_perm (sc : ℕ → ℚ) (n : ℕ) :
    List.Perm (sortIdxDesc sc n) (List.range n) := by
  unfold sortIdxDesc
  generalize List.range n = l
  induction l with
  | nil => simp
  | cons j rest ih =>
    simp only [List.foldr_cons]
    exact (insertIdxDesc_perm sc j _).trans (List.Perm.cons j ih)

lemma sortIdxDesc_nodup (sc : ℕ → ℚ) (n : ℕ) : (sortIdxDesc sc n).Nodup :=
  (sortIdxDesc_perm sc n).nodup_iff.mpr (List.nodup_range n)

lemma sortIdxDesc_mem_lt (sc : ℕ → ℚ) (n : ℕ) (i : ℕ)
    (h : i ∈ sortIdxDesc sc n) : i < n :=
  List.mem_range.mp ((sortIdxDesc_perm sc n).mem_iff.mp h)

lemma insertIdxDesc_pairwise (sc : ℕ → ℚ) (i : ℕ) (l : List ℕ)
    (h : l.Pairwise (fun a b => sc b ≤ sc a)) :
    (insertIdxDesc sc i l).Pairwise (fun a b => sc b ≤ sc a) := by
  induction l with
  | nil => simp [insertIdxDesc]
  | cons j rest ih =>
    rcases List.pairwise_cons.mp h with ⟨hj, hrest⟩
    unfold insertIdxDesc
    by_cases hc : sc j ≤ sc i
    · rw [if_pos hc]
      refine List.pairwise_cons.mpr ⟨?_, h⟩
      intro b hb
      rcases List.mem_cons.mp hb with rfl | hb'
      · exact hc
      · exact le_trans (hj b hb') hc
    · rw [if_neg hc]
      refine List.pairwise_cons.mpr ⟨?_, ih hrest⟩
      intro b hb
      rcases List.mem_cons.mp ((insertIdxDesc_perm sc i rest).mem_iff.mp hb) with rfl | h2
      · exact le_of_not_le hc
      · exact hj b h2

lemma sortIdxDesc_sorted (sc : ℕ → ℚ) (n : ℕ) :
    (sortIdxDesc sc n).Pairwise (fun a b => sc b ≤ sc a) := by
  unfold sortIdxDesc
  generalize List.range n = l
  induction l with
  | nil => simp
  | cons j rest ih =>
    simp only [List.foldr_cons]
    exact insertIdxDesc_pairwise sc j _ ih

lemma insertIdxDesc_front (sc : ℕ → ℚ) (i : ℕ) (l : List ℕ)
    (h : ∀ j ∈ l, sc j ≤ sc i) : insertIdxDesc sc i l = i :: l := by
  cases l with
  | nil => rfl
  | cons j rest =>
    unfold insertIdxDesc
    rw [if_pos (h j (by simp))]

lemma sortIdxDesc_const (sc : ℕ → ℚ) (n : ℕ)
    (h : ∀ i, i < n → ∀ j, j < n → sc j ≤ sc i) :
    sortIdxDesc sc n = List.range n := by
  unfold sortIdxDesc
  have aux : ∀ l : List ℕ, (∀ a ∈ l, a < n) → l.foldr (insertIdxDesc sc) [] = l := by
    intro l
    induction l with
    | nil => intro _; rfl
    | cons j rest ih =>
      intro hl
      simp only [List.foldr_cons]
      rw [ih (fun a ha => hl a (by simp [ha]))]
      exact insertIdxDesc_front sc j rest
        (fun b hb => h j (hl j (by simp)) b (hl b (by simp [hb])))
  exact aux (List.range n) (fun a ha => List.mem_range.mp ha)

lemma nmsKeepAux_append (box : ℕ → Box) (t : ℚ) :
    ∀ (l kept : List ℕ), ∃ l', List.Sublist l' l ∧
      nmsKeepAux box t l kept = kept.reverse ++ l' := by
  intro l
  induction l with
  | nil =>
    intro kept
    exact ⟨[], List.Sublist.refl [], by simp [nmsKeepAux]⟩
  | cons i rest ih =>
    intro kept
    unfold nmsKeepAux
    by_cases hc : kept.all (fun j => decide (iou1 (box j) (box i) ≤ t)) = true
    · rw [if_pos hc]
      obtain ⟨l', hsub, heq⟩ := ih (i :: kept)
      refine ⟨i :: l', hsub.cons₂ i, ?_⟩
      rw [heq, List.reverse_cons, List.append_assoc]
      rfl
    · rw [if_neg hc]
      obtain ⟨l', hsub, heq⟩ := ih kept
      exact ⟨l', hsub.cons i, heq⟩

lemma nms_sublist (boxes : List Box) (scores : List ℚ) (t : ℚ) :
    List.Sublist (nms boxes scores t)
      (sortIdxDesc (fun i => scores.getD i 0) boxes.length) := by
  obtain ⟨l', hsub, heq⟩ := nmsKeepAux_append (fun i => boxes.getD i box0) t
    (sortIdxDesc (fun i => scores.getD i 0) boxes.length) []
  unfold nms
  rw [heq]
  simpa using hsub

lemma nms_nodup (boxes : List Box) (scores : List ℚ) (t : ℚ) :
    (nms boxes scores t).Nodup :=
  (sortIdxDesc_nodup _ _).sublist (nms_sublist boxes scores t)

lemma nms_mem_lt (boxes : List Box) (scores : List ℚ) (t : ℚ) (i : ℕ)
    (h : i ∈ nms boxes scores t) : i < boxes.length :=
  sortIdxDesc_mem_lt _ _ i ((nms_sublist boxes scores t).subset h)

lemma nms_sorted (boxes : List Box) (scores : List ℚ) (t : ℚ) :
    (nms boxes scores t).Pairwise (fun a b => scores.getD b 0 ≤ scores.getD a 0) :=
  (sortIdxDesc_sorted _ _).sublist (nms_sublist boxes scores t)

lemma nmsKeepAux_mem_iou (box : ℕ → Box) (t : ℚ) :
    ∀ (l kept : List ℕ),
      (∀ a ∈ kept, ∀ b ∈ kept, a ≠ b → iou1 (box a) (box b) ≤ t) →
      (∀ a ∈ nmsKeepAux box t l kept, ∀ b ∈ nmsKeepAux box t l kept,
        a ≠ b → iou1 (box a) (box b) ≤ t) := by
  intro l
  induction l with
  | nil =>
    intro kept hk
    simpa [nmsKeepAux] using hk
  | cons i rest ih =>
    intro kept hk
    unfold nmsKeepAux
    by_cases hc : kept.all (fun j => decide (iou1 (box j) (box i) ≤ t)) = true
    · rw [if_pos hc]
      apply ih
      have hfor : ∀ j ∈ kept, iou1 (box j) (box i) ≤ t := by
        intro j hj
        have := List.all_eq_true.mp hc j hj
        exact of_decide_eq_true this
      intro a ha b hb hab
      rcases List.mem_cons.mp ha with rfl | ha' <;>
        rcases List.mem_cons.mp hb with rfl | hb'
      · exact absurd rfl hab
      · rw [iou1_comm]
        exact hfor b hb'
      · exact hfor a ha'
      · exact hk a ha' b hb' hab
    · rw [if_neg hc]
      exact ih kept hk

lemma nms_mem_iou (boxes : List Box) (scores : List ℚ) (t : ℚ) :
    ∀ a ∈ nms boxes scores t, ∀ b ∈ nms boxes scores t,
      a ≠ b → iou1 (boxes.getD a box0) (boxes.getD b box0) ≤ t := by
  unfold nms
  exact nmsKeepAux_mem_iou _ t _ [] (by simp)

/-- Pairwise form of the suppression invariant, in both orientations. -/
lemma nms_pairwise (boxes : List Box) (scores : List ℚ) (t : ℚ) :
    (nms boxes scores t).Pairwise (fun a b =>
      iou1 (boxes.getD a box0) (boxes.getD b box0) ≤ t ∧
      iou1 (boxes.getD b box0) (boxes.getD a box0) ≤ t) := by
  have hnd := nms_nodup boxes scores t
  have hmem := nms_mem_iou boxes scores t
  refine List.Pairwise.imp_of_mem ?_ hnd
  intro a b ha hb hne
  exact ⟨hmem a ha b hb hne, hmem b hb a ha (fun hc => hne hc.symm)⟩

lemma nmsKeepAux_keep_all (box : ℕ → Box) (t : ℚ) :
    ∀ (l kept : List ℕ), l.Nodup → (∀ i ∈ l, i ∉ kept) →
      (∀ i ∈ l, ∀ j, (j ∈ kept ∨ j ∈ l) → j ≠ i → iou1 (box j) (box i) ≤ t) →
      nmsKeepAux box t l kept = kept.reverse ++ l := by
  intro l
  induction l with
  | nil =>
    intro kept _ _ _
    simp [nmsKeepAux]
  | cons i rest ih =>
    intro kept hnd hdisj hiou
    unfold nmsKeepAux
    have hc : kept.all (fun j => decide (iou1 (box j) (box i) ≤ t)) = true := by
      apply List.all_eq_true.mpr
      intro j hj
      apply decide_eq_true
      apply hiou i (by simp) j (Or.inl hj)
      intro hji
      exact hdisj i (by simp) (hji ▸ hj)
    rw [if_pos hc]
    rw [ih (i :: kept) (List.nodup_cons.mp hnd).2 ?_ ?_]
    · rw [List.reverse_cons, List.append_assoc]
      rfl
    · intro a ha
      rw [List.mem_cons]
      push_neg
      constructor
      · intro hai
        exact (List.nodup_cons.mp hnd).1 (hai ▸ ha)
      · exact hdisj a (by simp [ha])
    · intro a ha j hj hja
      apply hiou a (by simp [ha]) j _ hja
      rcases hj with hj1 | hj2
      · rcases List.mem_cons.mp hj1 with rfl | hk
        · exact Or.inr (by simp)
        · exact Or.inl hk
      · exact Or.inr (by simp [hj2])

/-! ### Translation invariance of IoU and indexing helpers -/

lemma interW_translate (a b : Box) (c : ℚ) :
    interW (offsetBox a c) (offsetBox b c) = interW a b := by
  unfold interW offsetBox
  dsimp only
  rw [min_add_add_right, max_add_add_right]
  congr 1
  ring

lemma interH_translate (a b : Box) (c : ℚ) :
    interH (offsetBox a c) (offsetBox b c) = interH a b := by
  unfold interH offsetBox
  dsimp only
  rw [min_add_add_right, max_add_add_right]
  congr 1
  ring

lemma boxArea_translate (a : Box) (c : ℚ) : boxArea (offsetBox a c) = boxArea a := by
  unfold boxArea offsetBox
  dsimp only
  ring

/-- IoU is invariant under translating both boxes by the same class offset. -/
lemma iou1_translate (a b : Box) (c : ℚ) :
    iou1 (offsetBox a c) (offsetBox b c) = iou1 a b := by
  unfold iou1 boxInter
  rw [interW_translate, interH_translate, boxArea_translate, boxArea_translate]

lemma getD_map_of_lt {α β : Type} (f : α → β) (l : List α) (i : ℕ)
    (h : i < l.length) (d : β) (d' : α) : (l.map f).getD i d = f (l.getD i d') := by
  have hm : i < (l.map f).length := by simpa using h
  rw [List.getD_eq_getElem?_getD, List.getElem?_eq_getElem hm]
  rw [List.getD_eq_getElem?_getD, List.getElem?_eq_getElem h]
  simp

lemma getD_mem_of_lt {α : Type} (l : List α) (i : ℕ) (h : i < l.length) (d : α) :
    l.getD i d ∈ l := by
  rw [List.getD_eq_getElem?_getD, List.getElem?_eq_getElem h]
  exact List.getElem_mem h

/-- Every non-empty run of the per-image loop is: take the candidate matrix
(possibly overflow-truncated), run `torchvision.ops.nms` on its offset boxes
and confidences, truncate to `max_det`, and index back. -/
lemma processImage_spec (c t : ℚ) (cls : Option (List ℚ)) (ag ml : Bool)
    (lab : List LabelRow) (md nc : ℕ) (rows : List RawRow) :
    processImage c t cls ag ml lab md nc rows = [] ∨
    ∃ dets2 : List Detection,
      (∀ d ∈ dets2, d ∈ candidates c cls (ml && decide (1 < nc)) (gatedRows c nc lab rows)) ∧
      processImage c t cls ag ml lab md nc rows =
        ((nms (dets2.map (nmsBoxOf ag)) (dets2.map (fun d => d.conf)) t).take md).map
          (fun k => dets2.getD k det0) := by
  unfold processImage
  by_cases h1 : (gatedRows c nc lab rows).isEmpty = true
  · rw [if_pos h1]
    exact Or.inl rfl
  · rw [if_neg h1]
    by_cases h2 :
        (candidates c cls (ml && decide (1 < nc)) (gatedRows c nc lab rows)).isEmpty = true
    · rw [if_pos h2]
      exact Or.inl rfl
    · rw [if_neg h2]
      right
      by_cases h3 :
          (candidates c cls (ml && decide (1 < nc)) (gatedRows c nc lab rows)).length > 30000
      · rw [if_pos h3]
        refine ⟨truncTop _, ?_, rfl⟩
        intro d hd
        unfold truncTop at hd
        rcases List.mem_map.mp hd with ⟨k, hk, rfl⟩
        have hklt : k < (candidates c cls (ml && decide (1 < nc))
            (gatedRows c nc lab rows)).length :=
          sortIdxDesc_mem_lt _ _ k ((List.take_sublist _ _).subset hk)
        exact getD_mem_of_lt _ k hklt det0
      · rw [if_neg h3]
        exact ⟨_, fun d hd => hd, rfl⟩

/-- The per-image output satisfies the pairwise offset-IoU bound (the
invariant maintained by the greedy suppression loop). -/
lemma processImage_pairwise_off (c t : ℚ) (cls : Option (List ℚ)) (ag ml : Bool)
    (lab : List LabelRow) (md nc : ℕ) (rows : List RawRow) :
    (processImage c t cls ag ml lab md nc rows).Pairwise
      (fun d e => iou1 (nmsBoxOf ag d) (nmsBoxOf ag e) ≤ t ∧
                  iou1 (nmsBoxOf ag e) (nmsBoxOf ag d) ≤ t) := by
  rcases processImage_spec c t cls ag ml lab md nc rows with h | ⟨dets2, hsub, heq⟩
  · rw [h]
    exact List.Pairwise.nil
  · rw [heq]
    have hp := (nms_pairwise (dets2.map (nmsBoxOf ag)) (dets2.map (fun d => d.conf))
      t).sublist (List.take_sublist md _)
    rw [List.pairwise_map]
    refine List.Pairwise.imp_of_mem ?_ hp
    intro a b ha hb hR
    have hla : a < dets2.length := by
      have := nms_mem_lt _ _ _ a ((List.take_sublist md _).subset ha)
      simpa using this
    have hlb : b < dets2.length := by
      have := nms_mem_lt _ _ _ b ((List.take_sublist md _).subset hb)
      simpa using this
    rw [getD_map_of_lt (nmsBoxOf ag) dets2 a hla box0 det0,
        getD_map_of_lt (nmsBoxOf ag) dets2 b hlb box0 det0] at hR
    exact hR

/-- The per-image output never exceeds `max_det` detections. -/
lemma processImage_len_le (c t : ℚ) (cls : Option (List ℚ)) (ag ml : Bool)
    (lab : List LabelRow) (md nc : ℕ) (rows : List RawRow) :
    (processImage c t cls ag ml lab md nc rows).length ≤ md := by
  rcases processImage_spec c t cls ag ml lab md nc rows with h | ⟨dets2, hsub, heq⟩
  · simp [h]
  · rw [heq]
    rw [List.length_map]
    have := List.length_take md
      (nms (dets2.map (nmsBoxOf ag)) (dets2.map (fun d => d.conf)) t)
    omega

/-- The per-image output is sorted by non-increasing confidence. -/
lemma processImage_sorted (c t : ℚ) (cls : Option (List ℚ)) (ag ml : Bool)
    (lab : List LabelRow) (md nc : ℕ) (rows : List RawRow) :
    (processImage c t cls ag ml lab md nc rows).Pairwise
      (fun d e => e.conf ≤ d.conf) := by
  rcases processImage_spec c t cls ag ml lab md nc rows with h | ⟨dets2, hsub, heq⟩
  · rw [h]
    exact List.Pairwise.nil
  · rw [heq]
    have hp := (nms_sorted (dets2.map (nmsBoxOf ag)) (dets2.map (fun d => d.conf))
      t).sublist (List.take_sublist md _)
    rw [List.pairwise_map]
    refine List.Pairwise.imp_of_mem ?_ hp
    intro a b ha hb hR
    have hla : a < dets2.length := by
      have := nms_mem_lt _ _ _ a ((List.take_sublist md _).subset ha)
      simpa using this
    have hlb : b < dets2.length := by
      have := nms_mem_lt _ _ _ b ((List.take_sublist md _).subset hb)
      simpa using this
    rw [getD_map_of_lt (fun d => d.conf) dets2 a hla 0 det0,
        getD_map_of_lt (fun d => d.conf) dets2 b hlb 0 det0] at hR
    exact hR

/-- Every emitted detection is one of the (un-offset) candidates. -/
lemma processImage_subset (c t : ℚ) (cls : Option (List ℚ)) (ag ml : Bool)
    (lab : List LabelRow) (md nc : ℕ) (rows : List RawRow) :
    ∀ d ∈ processImage c t cls ag ml lab md nc rows,
      d ∈ candidates c cls (ml && decide (1 < nc)) (gatedRows c nc lab rows) := by
  rcases processImage_spec c t cls ag ml lab md nc rows with h | ⟨dets2, hsub, heq⟩
  · rw [h]
    intro d hd
    cases hd
  · rw [heq]
    intro d hd
    rcases List.mem_map.mp hd with ⟨k, hk, rfl⟩
    have hkl : k < dets2.length := by
      have := nms_mem_lt _ _ _ k ((List.take_sublist md _).subset hk)
      simpa using this
    exact hsub _ (getD_mem_of_lt _ k hkl det0)

/-- Inversion of a successful `non_max_suppression` call. -/
lemma non_max_suppression_ok (p : List (List RawRow)) (c t : ℚ)
    (cls : Option (List ℚ)) (ag ml : Bool) (labs : List (List LabelRow)) (md : ℕ)
    (outs : List (List Detection))
    (h : non_max_suppression p c t cls ag ml labs md = Except.ok outs) :
    ((0 ≤ c ∧ c ≤ 1) ∧ (0 ≤ t ∧ t ≤ 1)) ∧
    outs = (List.range p.length).map (fun xi =>
      processImage c t cls ag ml (labs.getD xi []) md (predNc p) (p.getD xi [])) := by
  unfold non_max_suppression at h
  by_cases h1 : 0 ≤ c ∧ c ≤ 1
  · rw [if_pos h1] at h
    by_cases h2 : 0 ≤ t ∧ t ≤ 1
    · rw [if_pos h2] at h
      exact ⟨⟨h1, h2⟩, (Except.ok.inj h).symm⟩
    · rw [if_neg h2] at h
      cases h
  · rw [if_neg h1] at h
    cases h

/-- Indexing the per-image output list. -/
lemma rangeMap_getD {β : Type} (f : ℕ → List β) (n xi : ℕ) :
    ((List.range n).map f).getD xi [] = if xi < n then f xi else [] := by
  by_cases hx : xi < n
  · rw [if_pos hx]
    have hr : xi < (List.range n).length := by simpa using hx
    rw [getD_map_of_lt f (List.range n) xi hr [] 0]
    congr 1
    rw [List.getD_eq_getElem?_getD, List.getElem?_range hx]
    rfl
  · rw [if_neg hx]
    apply List.getD_eq_default
    simpa using hx

/-! ### Claims C1, C3, C10: per-image output invariants -/

/-- **C1.** After `non_max_suppression` returns (merge mode is hardcoded off in
the source), no two detections emitted for the same image with the same class
index have IoU above `iou_thres`: the class offset is identical for equal
classes, so the suppression invariant on offset boxes transfers to the
original boxes by translation invariance of IoU. -/
theorem spec_C1 (prediction : List (List RawRow)) (conf_thres iou_thres : ℚ)
    (classes : Option (List ℚ)) (agnostic multi_label : Bool)
    (labels : List (List LabelRow)) (max_det : ℕ) (outs : List (List Detection))
    (h : non_max_suppression prediction conf_thres iou_thres classes agnostic
      multi_label labels max_det = Except.ok outs) (xi : ℕ) :
    (outs.getD xi []).Pairwise (fun d e => d.cls = e.cls →
      iou1 d.box e.box ≤ iou_thres ∧ iou1 e.box d.box ≤ iou_thres) := by
  obtain ⟨-, houts⟩ := non_max_suppression_ok prediction conf_thres iou_thres classes
    agnostic multi_label labels max_det outs h
  subst houts
  rw [rangeMap_getD]
  by_cases hx : xi < prediction.length
  · rw [if_pos hx]
    have hp := processImage_pairwise_off conf_thres iou_thres classes agnostic
      multi_label (labels.getD xi []) max_det (predNc prediction) (prediction.getD xi [])
    refine hp.imp ?_
    intro d e hR hcls
    have h1 := hR.1
    have h2 := hR.2
    rw [show nmsBoxOf agnostic d = offsetBox d.box (classOffset agnostic d.cls) from rfl,
        show nmsBoxOf agnostic e = offsetBox e.box (classOffset agnostic e.cls) from rfl,
        hcls, iou1_translate] at h1 h2
    exact ⟨h1, h2⟩
  · rw [if_neg hx]
    exact List.Pairwise.nil

unseal Rat.add Rat.mul Rat.inv Rat.sub in
/-- Witness for C1 on a concrete one-candidate batch. -/
theorem spec_C1_witness :
    (([[(⟨⟨8, 8, 12, 12⟩, 18/25, 0⟩ : Detection)]] : List (List Detection)).getD 0
      []).Pairwise (fun d e => d.cls = e.cls →
        iou1 d.box e.box ≤ 9/20 ∧ iou1 e.box d.box ≤ 9/20) :=
  by
  have h : non_max_suppression [[⟨10, 10, 4, 4, 9/10, [4/5]⟩]] (1/4) (9/20) none
      false false [] 300 = Except.ok [[⟨⟨8, 8, 12, 12⟩, 18/25, 0⟩]] := rfl
  exact spec_C1 [[⟨10, 10, 4, 4, 9/10, [4/5]⟩]] (1/4) (9/20) none false false [] 300
    [[⟨⟨8, 8, 12, 12⟩, 18/25, 0⟩]] h 0

/-- **C3.** The number of detections emitted for each image never exceeds
`max_det`. -/
theorem spec_C3 (prediction : List (List RawRow)) (conf_thres iou_thres : ℚ)
    (classes : Option (List ℚ)) (agnostic multi_label : Bool)
    (labels : List (List LabelRow)) (max_det : ℕ) (outs : List (List Detection))
    (h : non_max_suppression prediction conf_thres iou_thres classes agnostic
      multi_label labels max_det = Except.ok outs) (xi : ℕ) :
    (outs.getD xi []).length ≤ max_det := by
  obtain ⟨-, houts⟩ := non_max_suppression_ok prediction conf_thres iou_thres classes
    agnostic multi_label labels max_det outs h
  subst houts
  rw [rangeMap_getD]
  by_cases hx : xi < prediction.length
  · rw [if_pos hx]
    exact processImage_len_le conf_thres iou_thres classes agnostic
      multi_label (labels.getD xi []) max_det (predNc prediction) (prediction.getD xi [])
  · rw [if_neg hx]
    simp

unseal Rat.add Rat.mul Rat.inv Rat.sub in
/-- Witness for C3 on a concrete one-candidate batch. -/
theorem spec_C3_witness :
    (([[(⟨⟨8, 8, 12, 12⟩, 18/25, 0⟩ : Detection)]] : List (List Detection)).getD 0
      []).length ≤ 300 :=
  by
  have h : non_max_suppression [[⟨10, 10, 4, 4, 9/10, [4/5]⟩]] (1/4) (9/20) none
      false false [] 300 = Except.ok [[⟨⟨8, 8, 12, 12⟩, 18/25, 0⟩]] := rfl
  exact spec_C3 [[⟨10, 10, 4, 4, 9/10, [4/5]⟩]] (1/4) (9/20) none false false [] 300
    [[⟨⟨8, 8, 12, 12⟩, 18/25, 0⟩]] h 0

/-- **C10.** With merge mode disabled (as hardcoded), the per-image output is
sorted by non-increasing confidence: `torchvision.ops.nms` returns surviving
indices by decreasing score and the `max_det` truncation keeps a prefix. -/
theorem spec_C10 (prediction : List (List RawRow)) (conf_thres iou_thres : ℚ)
    (classes : Option (List ℚ)) (agnostic multi_label : Bool)
    (labels : List (List LabelRow)) (max_det : ℕ) (outs : List (List Detection))
    (h : non_max_suppression prediction conf_thres iou_thres classes agnostic
      multi_label labels max_det = Except.ok outs) (xi : ℕ) :
    (outs.getD xi []).Pairwise (fun d e => e.conf ≤ d.conf) := by
  obtain ⟨-, houts⟩ := non_max_suppression_ok prediction conf_thres iou_thres classes
    agnostic multi_label labels max_det outs h
  subst houts
  rw [rangeMap_getD]
  by_cases hx : xi < prediction.length
  · rw [if_pos hx]
    exact processImage_sorted conf_thres iou_thres classes agnostic
      multi_label (labels.getD xi []) max_det (predNc prediction) (prediction.getD xi [])
  · rw [if_neg hx]
    exact List.Pairwise.nil

unseal Rat.add Rat.mul Rat.inv Rat.sub in
/-- Witness for C10 on a concrete two-candidate batch. -/
theorem spec_C10_witness :
    (([[(⟨⟨8, 8, 12, 12⟩, 18/25, 0⟩ : Detection), ⟨⟨8, 8, 12, 12⟩, 16/25, 1⟩]] :
      List (List Detection)).getD 0 []).Pairwise (fun d e => e.conf ≤ d.conf) :=
  by
  have h : non_max_suppression
      [[⟨10, 10, 4, 4, 9/10, [4/5, 1/10]⟩, ⟨10, 10, 4, 4, 8/10, [1/10, 4/5]⟩]]
      (1/4) (9/20) none false false [] 300 =
      Except.ok [[⟨⟨8, 8, 12, 12⟩, 18/25, 0⟩, ⟨⟨8, 8, 12, 12⟩, 16/25, 1⟩]] := rfl
  exact spec_C10
    [[⟨10, 10, 4, 4, 9/10, [4/5, 1/10]⟩, ⟨10, 10, 4, 4, 8/10, [1/10, 4/5]⟩]]
    (1/4) (9/20) none false false [] 300
    [[⟨⟨8, 8, 12, 12⟩, 18/25, 0⟩, ⟨⟨8, 8, 12, 12⟩, 16/25, 1⟩]] h 0

/-! ### Claims C7, C8: error handling -/

/-- **C7.** A threshold outside [0,1] makes `non_max_suppression` fail before
any image is processed (the `Except` error carries no partial output); with
valid thresholds the error branch is unreachable and the call returns `ok`. -/
theorem spec_C7 (prediction : List (List RawRow)) (conf_thres iou_thres : ℚ)
    (classes : Option (List ℚ)) (agnostic multi_label : Bool)
    (labels : List (List LabelRow)) (max_det : ℕ) :
    ((¬(0 ≤ conf_thres ∧ conf_thres ≤ 1) ∨ ¬(0 ≤ iou_thres ∧ iou_thres ≤ 1)) →
      ∃ msg, non_max_suppression prediction conf_thres iou_thres classes agnostic
        multi_label labels max_det = Except.error msg) ∧
    ((0 ≤ conf_thres ∧ conf_thres ≤ 1) → (0 ≤ iou_thres ∧ iou_thres ≤ 1) →
      ∃ outs, non_max_suppression prediction conf_thres iou_thres classes agnostic
        multi_label labels max_det = Except.ok outs) := by
  constructor
  · intro hbad
    unfold non_max_suppression
    by_cases h1 : 0 ≤ conf_thres ∧ conf_thres ≤ 1
    · rcases hbad with hb | hb
      · exact absurd h1 hb
      · rw [if_pos h1, if_neg hb]
        exact ⟨_, rfl⟩
    · rw [if_neg h1]
      exact ⟨_, rfl⟩
  · intro h1 h2
    unfold non_max_suppression
    rw [if_pos h1, if_pos h2]
    exact ⟨_, rfl⟩

/-- Witness for C7: an invalid confidence threshold errors, valid ones return
`ok`. -/
theorem spec_C7_witness :
    (∃ msg, non_max_suppression [] 2 (1/2) none false false [] 300 =
      Except.error msg) ∧
    (∃ outs, non_max_suppression [] (1/4) (9/20) none false false [] 300 =
      Except.ok outs) :=
  ⟨(spec_C7 [] 2 (1/2) none false false [] 300).1 (Or.inl (by norm_num)),
   (spec_C7 [] (1/4) (9/20) none false false [] 300).2 (by norm_num) (by norm_num)⟩

/-- **C8.** With valid thresholds the call never raises, and an image whose
candidate matrix is empty after all gating stages (objectness gate, label
concatenation, per-class confidence gate, class allowlist) yields the empty
detection list for that image. -/
theorem spec_C8 (prediction : List (List RawRow)) (conf_thres iou_thres : ℚ)
    (classes : Option (List ℚ)) (agnostic multi_label : Bool)
    (labels : List (List LabelRow)) (max_det : ℕ)
    (hc : 0 ≤ conf_thres ∧ conf_thres ≤ 1) (ht : 0 ≤ iou_thres ∧ iou_thres ≤ 1) :
    (∃ outs, non_max_suppression prediction conf_thres iou_thres classes agnostic
      multi_label labels max_det = Except.ok outs) ∧
    (∀ outs xi, non_max_suppression prediction conf_thres iou_thres classes agnostic
        multi_label labels max_det = Except.ok outs →
      candidates conf_thres classes (multi_label && decide (1 < predNc prediction))
        (gatedRows conf_thres (predNc prediction) (labels.getD xi [])
          (prediction.getD xi [])) = [] →
      outs.getD xi [] = []) := by
  constructor
  · unfold non_max_suppression
    rw [if_pos hc, if_pos ht]
    exact ⟨_, rfl⟩
  · intro outs xi h hcand
    obtain ⟨-, houts⟩ := non_max_suppression_ok prediction conf_thres iou_thres classes
      agnostic multi_label labels max_det outs h
    subst houts
    rw [rangeMap_getD]
    by_cases hx : xi < prediction.length
    · rw [if_pos hx]
      unfold processImage
      by_cases h1 : (gatedRows conf_thres (predNc prediction) (labels.getD xi [])
          (prediction.getD xi [])).isEmpty = true
      · rw [if_pos h1]
      · rw [if_neg h1, hcand]
        simp
    · rw [if_neg hx]

unseal Rat.add Rat.mul Rat.inv Rat.sub in
/-- Witness for C8: a batch whose single anchor fails the objectness gate. -/
theorem spec_C8_witness :
    (∃ outs, non_max_suppression [[⟨10, 10, 4, 4, 1/10, [4/5]⟩]] (1/4) (9/20)
      none false false [] 300 = Except.ok outs) ∧
    (∀ outs xi, non_max_suppression [[⟨10, 10, 4, 4, 1/10, [4/5]⟩]] (1/4) (9/20)
        none false false [] 300 = Except.ok outs →
      candidates (1/4) none
          (false && decide (1 < predNc [[⟨10, 10, 4, 4, 1/10, [4/5]⟩]]))
          (gatedRows (1/4) (predNc [[⟨10, 10, 4, 4, 1/10, [4/5]⟩]])
            (([] : List (List LabelRow)).getD xi [])
            ([[(⟨10, 10, 4, 4, 1/10, [4/5]⟩ : RawRow)]].getD xi [])) = [] →
      outs.getD xi [] = []) :=
  spec_C8 [[⟨10, 10, 4, 4, 1/10, [4/5]⟩]] (1/4) (9/20) none false false [] 300
    (by norm_num) (by norm_num)

/-! ### Claim C2: the class-offset trick -/

/-- Per-class reading of the suppression loop (the spec's step 7/8): a kept
candidate of a different class never suppresses, and same-class overlap is
measured on the original, un-offset boxes. -/
def nmsKeepAuxByClass (box : ℕ → Box) (cl : ℕ → ℚ) (iouT : ℚ) :
    List ℕ → List ℕ → List ℕ
  | [], kept => kept.reverse
  | i :: rest, kept =>
    if kept.all (fun j =>
        decide (cl j ≠ cl i) || decide (iou1 (box j) (box i) ≤ iouT)) then
      nmsKeepAuxByClass box cl iouT rest (i :: kept)
    else
      nmsKeepAuxByClass box cl iouT rest kept

lemma list_all_congr {α : Type} (l : List α) (f g : α → Bool)
    (h : ∀ x ∈ l, f x = g x) : l.all f = l.all g := by
  induction l with
  | nil => rfl
  | cons a t ih =>
    simp only [List.all_cons, h a (by simp), ih fun x hx => h x (by simp [hx])]

lemma interW_offset_zero_of_lt (a b : Box) (ka kb : ℕ) (hk : ka < kb)
    (ha2 : a.x2 < 4096) (hb1 : 0 ≤ b.x1) :
    interW (offsetBox a ((ka : ℚ) * 4096)) (offsetBox b ((kb : ℚ) * 4096)) = 0 := by
  unfold interW offsetBox
  dsimp only
  apply max_eq_left
  have hcast : (ka : ℚ) + 1 ≤ (kb : ℚ) := by exact_mod_cast hk
  have hmul : (ka : ℚ) * 4096 + 4096 ≤ (kb : ℚ) * 4096 := by nlinarith
  have hmin : min (a.x2 + (ka : ℚ) * 4096) (b.x2 + (kb : ℚ) * 4096) ≤
      a.x2 + (ka : ℚ) * 4096 := min_le_left _ _
  have hmax : b.x1 + (kb : ℚ) * 4096 ≤
      max (a.x1 + (ka : ℚ) * 4096) (b.x1 + (kb : ℚ) * 4096) := le_max_right _ _
  linarith

/-- Candidates of distinct (natural-number) classes whose boxes fit inside
`[0, 4096)` never overlap after the class offset. -/
lemma iou1_offset_cross (a b : Box) (ka kb : ℕ) (hne : ka ≠ kb)
    (ha : 0 ≤ a.x1 ∧ a.x2 < 4096) (hb : 0 ≤ b.x1 ∧ b.x2 < 4096) :
    iou1 (offsetBox a ((ka : ℚ) * 4096)) (offsetBox b ((kb : ℚ) * 4096)) = 0 := by
  rcases Nat.lt_or_ge ka kb with hlt | hge
  · unfold iou1 boxInter
    rw [interW_offset_zero_of_lt a b ka kb hlt ha.2 hb.1]
    rw [zero_mul, zero_div]
  · have hlt : kb < ka := lt_of_le_of_ne hge (fun hc => hne hc.symm)
    rw [iou1_comm]
    unfold iou1 boxInter
    rw [interW_offset_zero_of_lt b a kb ka hlt hb.2 ha.1]
    rw [zero_mul, zero_div]

/-- With every candidate box inside `[0, 4096)` and natural-number class
indices, the batched suppression on offset boxes runs exactly like per-class
suppression on the original boxes: a candidate is never removed because of a
candidate of a different class. -/
lemma nmsKeepAux_byClass_eq (box : ℕ → Box) (cl : ℕ → ℚ) (t : ℚ) (h0 : 0 ≤ t)
    (hb : ∀ i, 0 ≤ (box i).x1 ∧ (box i).x2 < 4096)
    (hcl : ∀ i, ∃ k : ℕ, cl i = (k : ℚ)) :
    ∀ l kept,
      nmsKeepAux (fun i => offsetBox (box i) (classOffset false (cl i))) t l kept
        = nmsKeepAuxByClass box cl t l kept := by
  intro l
  induction l with
  | nil => intro kept; rfl
  | cons i rest ih =>
    intro kept
    unfold nmsKeepAux nmsKeepAuxByClass
    have hoff : ∀ j, classOffset false (cl j) = cl j * 4096 := fun j => rfl
    have hcond : kept.all (fun j => decide
        (iou1 (offsetBox (box j) (classOffset false (cl j)))
          (offsetBox (box i) (classOffset false (cl i))) ≤ t)) =
        kept.all (fun j =>
          decide (cl j ≠ cl i) || decide (iou1 (box j) (box i) ≤ t)) := by
      apply list_all_congr
      intro j _
      by_cases hc : cl j = cl i
      · rw [hc, iou1_translate]
        simp [hc]
      · obtain ⟨kj, hkj⟩ := hcl j
        obtain ⟨ki, hki⟩ := hcl i
        have hkne : kj ≠ ki := by
          intro hkk
          apply hc
          rw [hkj, hki, hkk]
        rw [hoff j, hoff i, hkj, hki,
          iou1_offset_cross (box j) (box i) kj ki hkne (hb j) (hb i)]
        simp [hc, h0]
        exact Or.inl hkne
    rw [hcond]
    by_cases hdec : kept.all (fun j =>
        decide (cl j ≠ cl i) || decide (iou1 (box j) (box i) ≤ t)) = true
    · rw [if_pos hdec, if_pos hdec]
      exact ih (i :: kept)
    · rw [if_neg hdec, if_neg hdec]
      exact ih kept

unseal Rat.add Rat.mul Rat.inv Rat.sub in
/-- **C2 (amended).** When `agnostic` is false and every candidate box lies in
`[0, 4096)` (the class-offset unit `max_wh`), suppression never removes a
candidate because of a candidate of a different class: the batched offset run
equals per-class suppression on the original boxes; in particular two
identical-box candidates of different classes are both retained (concrete
instance).  Emitted detections always carry the original un-offset candidate
rows (the offset exists only inside the suppression call).  With
`agnostic = true`, of two identical-box candidates only the
higher-confidence one is retained (concrete instance).  Without the
`[0, 4096)` bound the first part fails, see the counterexample. -/
theorem spec_C2 (box : ℕ → Box) (cl : ℕ → ℚ) (iouT : ℚ) (l kept : List ℕ)
    (h0 : 0 ≤ iouT) (hb : ∀ i, 0 ≤ (box i).x1 ∧ (box i).x2 < 4096)
    (hcl : ∀ i, ∃ k : ℕ, cl i = (k : ℚ))
    (c t : ℚ) (cls : Option (List ℚ)) (ag ml : Bool) (lab : List LabelRow)
    (md nc : ℕ) (rows : List RawRow) :
    nmsKeepAux (fun i => offsetBox (box i) (classOffset false (cl i))) iouT l kept
      = nmsKeepAuxByClass box cl iouT l kept ∧
    (∀ d ∈ processImage c t cls ag ml lab md nc rows,
      d ∈ candidates c cls (ml && decide (1 < nc)) (gatedRows c nc lab rows)) ∧
    processImage (1/4) (9/20) none false false [] 300 2
      [⟨10, 10, 4, 4, 9/10, [4/5, 1/10]⟩, ⟨10, 10, 4, 4, 9/10, [1/10, 4/5]⟩]
      = [⟨⟨8, 8, 12, 12⟩, 18/25, 0⟩, ⟨⟨8, 8, 12, 12⟩, 18/25, 1⟩] ∧
    processImage (1/4) (9/20) none true false [] 300 2
      [⟨10, 10, 4, 4, 9/10, [4/5, 1/10]⟩, ⟨10, 10, 4, 4, 8/10, [1/10, 4/5]⟩]
      = [⟨⟨8, 8, 12, 12⟩, 18/25, 0⟩] := by
  refine ⟨nmsKeepAux_byClass_eq box cl iouT h0 hb hcl l kept,
    processImage_subset c t cls ag ml lab md nc rows, ?_, ?_⟩
  · rfl
  · rfl

unseal Rat.add Rat.mul Rat.inv Rat.sub in
/-- Witness for C2 (amended) at concrete arguments. -/
theorem spec_C2_witness :
    nmsKeepAux (fun i => offsetBox ((fun _ => (⟨0, 0, 10, 10⟩ : Box)) i)
        (classOffset false ((fun _ => (0 : ℚ)) i))) (9/20) [0, 1] []
      = nmsKeepAuxByClass (fun _ => (⟨0, 0, 10, 10⟩ : Box)) (fun _ => (0 : ℚ))
          (9/20) [0, 1] [] ∧
    (∀ d ∈ processImage (1/4) (9/20) none false false [] 300 1
        [⟨10, 10, 4, 4, 9/10, [4/5]⟩],
      d ∈ candidates (1/4) none (false && decide (1 < 1))
        (gatedRows (1/4) 1 [] [⟨10, 10, 4, 4, 9/10, [4/5]⟩])) ∧
    processImage (1/4) (9/20) none false false [] 300 2
      [⟨10, 10, 4, 4, 9/10, [4/5, 1/10]⟩, ⟨10, 10, 4, 4, 9/10, [1/10, 4/5]⟩]
      = [⟨⟨8, 8, 12, 12⟩, 18/25, 0⟩, ⟨⟨8, 8, 12, 12⟩, 18/25, 1⟩] ∧
    processImage (1/4) (9/20) none true false [] 300 2
      [⟨10, 10, 4, 4, 9/10, [4/5, 1/10]⟩, ⟨10, 10, 4, 4, 8/10, [1/10, 4/5]⟩]
      = [⟨⟨8, 8, 12, 12⟩, 18/25, 0⟩] :=
  spec_C2 (fun _ => ⟨0, 0, 10, 10⟩) (fun _ => 0) (9/20) [0, 1] []
    (by norm_num) (fun _ => by norm_num) (fun _ => ⟨0, rfl⟩)
    (1/4) (9/20) none false false [] 300 1 [⟨10, 10, 4, 4, 9/10, [4/5]⟩]

unseal Rat.add Rat.mul Rat.inv Rat.sub in
/-- **C2 counterexample.** Two candidates with identical giant boxes
(`[0, 0, 10^6, 10^6]`, far beyond the 4096 offset unit) and different classes:
both pass every gate (the candidate matrix has two rows), yet with
`agnostic = false` the batched suppression removes one of them — the class
offset fails to separate boxes larger than `max_wh`, refuting the claim that
suppression never crosses classes and that identical-box candidates of
different classes are both retained. -/
theorem spec_C2_counterexample :
    (candidates (1/4) none false
      (gatedRows (1/4) 2 []
        [⟨500000, 500000, 1000000, 1000000, 9/10, [4/5, 1/10]⟩,
         ⟨500000, 500000, 1000000, 1000000, 9/10, [1/10, 4/5]⟩])).length = 2 ∧
    (candidates (1/4) none false
      (gatedRows (1/4) 2 []
        [⟨500000, 500000, 1000000, 1000000, 9/10, [4/5, 1/10]⟩,
         ⟨500000, 500000, 1000000, 1000000, 9/10, [1/10, 4/5]⟩])).map
      (fun d => d.cls) = [0, 1] ∧
    processImage (1/4) (9/20) none false false [] 300 2
      [⟨500000, 500000, 1000000, 1000000, 9/10, [4/5, 1/10]⟩,
       ⟨500000, 500000, 1000000, 1000000, 9/10, [1/10, 4/5]⟩]
      = [⟨⟨0, 0, 1000000, 1000000⟩, 18/25, 0⟩] :=
  ⟨rfl, rfl, rfl⟩

/-! ### Claim C9: the input prediction tensor is left unchanged -/

/-- Aliasing of a tensor value with respect to the `prediction` storage. -/
inductive TAlias where
  | viewOf : ℕ → TAlias
  | fresh : TAlias
deriving DecidableEq, Repr

/-- PyTorch semantics of boolean-mask (advanced) indexing: `x = x[xc[xi]]`
returns a new tensor, never a view, so the masked selection does not alias the
`prediction` storage. -/
def maskIndexAlias (_ : TAlias) : TAlias := TAlias.fresh

/-- Effect on the `prediction` store of the in-place fusion
`x[:, 5:] *= x[:, 4:5]`, applied through the alias of `x`: if `x` still
aliased image `i` of the prediction, the write would fuse exactly the
mask-selected rows of that image in place; on a fresh tensor the store is
untouched. -/
def inplaceFuseEffect (conf_thres : ℚ) (p : List (List RawRow)) :
    TAlias → List (List RawRow)
  | TAlias.viewOf i =>
      p.set i ((p.getD i []).map
        (fun r => if conf_thres < r.obj then fuseRow r else r))
  | TAlias.fresh => p

/-- The value of the `prediction` argument after the per-image loop of
`non_max_suppression`: each iteration rebinds `x` to the boolean-mask
selection of image `xi` and then fuses confidences in place on `x`. -/
def predictionAfterLoop (conf_thres : ℚ) (p : List (List RawRow)) :
    List (List RawRow) :=
  (List.range p.length).foldl
    (fun acc xi => inplaceFuseEffect conf_thres acc (maskIndexAlias (TAlias.viewOf xi))) p

/-- **C9.** `non_max_suppression` leaves its input prediction tensor
unchanged: the only in-place write of the loop (`x[:, 5:] *= x[:, 4:5]`) hits
the fresh tensor produced by boolean-mask indexing, never the prediction
storage, so after the loop the prediction equals its initial value. -/
theorem spec_C9 (conf_thres : ℚ) (p : List (List RawRow)) :
    predictionAfterLoop conf_thres p = p := by
  unfold predictionAfterLoop
  have aux : ∀ (l : List ℕ) (q : List (List RawRow)),
      l.foldl (fun acc xi =>
        inplaceFuseEffect conf_thres acc (maskIndexAlias (TAlias.viewOf xi))) q = q := by
    intro l
    induction l with
    | nil => intro q; rfl
    | cons a t ih =>
      intro q
      rw [List.foldl_cons]
      exact ih q
  exact aux (List.range p.length) p

/-! ### Claim C6: idempotence of the filter on its own output -/

lemma maxWithIdx_cons (a : ℚ) (l : List ℚ) (hl : l ≠ []) :
    maxWithIdx (a :: l) =
      (if (maxWithIdx l).1 > a then ((maxWithIdx l).1, (maxWithIdx l).2 + 1)
       else (a, 0)) := by
  cases l with
  | nil => exact absurd rfl hl
  | cons b rest => rfl

lemma oneHot_length (n k : ℕ) : (oneHot n k).length = n := by
  induction n generalizing k with
  | zero => rfl
  | succ m ih =>
    cases k with
    | zero => simp [oneHot]
    | succ j => simp [oneHot, ih j]

lemma maxWithIdx_replicate_zero (n : ℕ) :
    maxWithIdx (List.replicate n (0 : ℚ)) = (0, 0) := by
  induction n with
  | zero => rfl
  | succ m ih =>
    cases m with
    | zero => rfl
    | succ k =>
      rw [show List.replicate (k + 2) (0 : ℚ) = 0 :: List.replicate (k + 1) 0 from rfl]
      rw [maxWithIdx_cons 0 _ (by simp), ih]
      norm_num

lemma maxWithIdx_oneHot (n k : ℕ) (h : k < n) :
    maxWithIdx (oneHot n k) = (1, k) := by
  induction n generalizing k with
  | zero => omega
  | succ m ih =>
    cases k with
    | zero =>
      rw [show oneHot (m + 1) 0 = 1 :: List.replicate m 0 from rfl]
      cases m with
      | zero => rfl
      | succ j =>
        rw [maxWithIdx_cons 1 _ (by simp), maxWithIdx_replicate_zero]
        norm_num
    | succ j =>
      have hj : j < m := by omega
      rw [show oneHot (m + 1) (j + 1) = 0 :: oneHot m j from rfl]
      have hne : oneHot m j ≠ [] := by
        intro hc
        have := oneHot_length m j
        rw [hc] at this
        simp at this
        omega
      rw [maxWithIdx_cons 0 _ hne, ih j hj]
      norm_num

lemma maxWithIdx_idx_lt (l : List ℚ) (hl : l ≠ []) :
    (maxWithIdx l).2 < l.length := by
  induction l with
  | nil => exact absurd rfl hl
  | cons a t ih =>
    cases t with
    | nil => simp [maxWithIdx]
    | cons b rest =>
      rw [maxWithIdx_cons a _ (by simp)]
      by_cases hgt : (maxWithIdx (b :: rest)).1 > a
      · rw [if_pos hgt]
        have := ih (by simp)
        simp only [List.length_cons] at this ⊢
        omega
      · rw [if_neg hgt]
        simp

lemma getD_eq_get' {α : Type} (l : List α) (i : ℕ) (h : i < l.length) (d : α) :
    l.getD i d = l.get ⟨i, h⟩ := by
  rw [List.getD_eq_getElem?_getD, List.getElem?_eq_getElem h]
  rfl

lemma pairwise_sym_getD {α : Type} (S : α → α → Prop) (l : List α) (d : α)
    (hp : l.Pairwise (fun a b => S a b ∧ S b a)) :
    ∀ i j, i < l.length → j < l.length → i ≠ j → S (l.getD i d) (l.getD j d) := by
  intro i j hi hj hne
  have hg := List.pairwise_iff_get.mp hp
  rcases Nat.lt_or_ge i j with hij | hij
  · have := (hg ⟨i, hi⟩ ⟨j, hj⟩ hij).1
    rw [getD_eq_get' l i hi d, getD_eq_get' l j hj d]
    exact this
  · have hlt : j < i := by omega
    have := (hg ⟨j, hj⟩ ⟨i, hi⟩ hlt).2
    rw [getD_eq_get' l i hi d, getD_eq_get' l j hj d]
    exact this

lemma map_getD_range {α : Type} (l : List α) (d : α) :
    (List.range l.length).map (fun k => l.getD k d) = l := by
  induction l with
  | nil => rfl
  | cons a t ih =>
    rw [show (a :: t).length = t.length + 1 from rfl, List.range_succ_eq_map]
    rw [List.map_cons, List.map_map]
    have hc : ((fun k => (a :: t).getD k d) ∘ Nat.succ) = (fun k => t.getD k d) := by
      funext k
      rfl
    rw [hc, ih]
    rfl

lemma filterMap_map_eq_map {α β γ : Type} (l : List α) (g : α → β)
    (f : β → Option γ) (fn : α → γ) (hfg : ∀ x ∈ l, f (g x) = some (fn x)) :
    (l.map g).filterMap f = l.map fn := by
  induction l with
  | nil => rfl
  | cons a t ih =>
    rw [List.map_cons, List.map_cons,
      List.filterMap_cons_some (hfg a (by simp)),
      ih fun x hx => hfg x (by simp [hx])]

/-- Re-encode an emitted detection as a prediction row with confidence 1:
corner box back to center form, objectness 1, one-hot class scores. -/
def reencodeRow (nc : ℕ) (d : Detection) : RawRow :=
  ⟨(d.box.x1 + d.box.x2) / 2, (d.box.y1 + d.box.y2) / 2,
   d.box.x2 - d.box.x1, d.box.y2 - d.box.y1, 1,
   oneHot nc (Rat.floor d.cls).toNat⟩

/-- A detection with its confidence replaced by 1 — what the re-run emits for
a confidence-1 candidate. -/
def confOne (d : Detection) : Detection := ⟨d.box, 1, d.cls⟩

lemma fuseRow_reencode (nc : ℕ) (d : Detection) :
    fuseRow (reencodeRow nc d) = reencodeRow nc d := by
  unfold fuseRow reencodeRow
  simp [mul_one]

lemma xywh2xyxy_reencode (nc : ℕ) (d : Detection) :
    xywh2xyxy (reencodeRow nc d) = d.box := by
  unfold xywh2xyxy reencodeRow
  dsimp only
  have e1 : (d.box.x1 + d.box.x2) / 2 - (d.box.x2 - d.box.x1) / 2 = d.box.x1 := by ring
  have e2 : (d.box.y1 + d.box.y2) / 2 - (d.box.y2 - d.box.y1) / 2 = d.box.y1 := by ring
  have e3 : (d.box.x1 + d.box.x2) / 2 + (d.box.x2 - d.box.x1) / 2 = d.box.x2 := by ring
  have e4 : (d.box.y1 + d.box.y2) / 2 + (d.box.y2 - d.box.y1) / 2 = d.box.y2 := by ring
  rw [e1, e2, e3, e4]

lemma ratFloor_natCast (k : ℕ) : (Rat.floor ((k : ℕ) : ℚ)).toNat = k := by
  rw [ratFloor_eq, Int.floor_natCast]
  simp

/-- In the default single-label path with no labels and no allowlist, every
emitted detection's class is a natural number below the class count. -/
lemma processImage_cls_nat (c t : ℚ) (ag : Bool) (md nc : ℕ) (rows : List RawRow)
    (hc0 : 0 ≤ c) (hlen : ∀ r ∈ rows, r.cls.length = nc) :
    ∀ d ∈ processImage c t none ag false [] md nc rows,
      ∃ k : ℕ, k < nc ∧ d.cls = (k : ℚ) := by
  intro d hd
  have hmem := processImage_subset c t none ag false [] md nc rows d hd
  unfold candidates at hmem
  rw [Bool.false_and] at hmem
  simp only [if_neg (Bool.false_ne_true)] at hmem
  rcases List.mem_filterMap.mp hmem with ⟨r, hr, hpick⟩
  rcases List.mem_map.mp hr with ⟨r₀, hr₀, rfl⟩
  have hr₀rows : r₀ ∈ rows := by
    unfold gatedRows at hr₀
    rw [List.map_nil, List.append_nil] at hr₀
    exact (List.mem_filter.mp hr₀).1
  by_cases hcond : c < (maxWithIdx (fuseRow r₀).cls).1
  · rw [if_pos hcond] at hpick
    have hd_eq := Option.some.inj hpick
    refine ⟨(maxWithIdx (fuseRow r₀).cls).2, ?_, ?_⟩
    · have hne : (fuseRow r₀).cls ≠ [] := by
        intro hnil
        rw [hnil] at hcond
        simp [maxWithIdx] at hcond
        linarith
      have hidx := maxWithIdx_idx_lt _ hne
      have hlen' : (fuseRow r₀).cls.length = nc := by
        unfold fuseRow
        simp [hlen r₀ hr₀rows]
      omega
    · rw [← hd_eq]
  · rw [if_neg hcond] at hpick
    cases hpick

/-- Re-running the per-image filter on its own output, re-encoded as
confidence-1 candidates, performs no further suppression: the result is the
input list with every confidence set to 1. -/
lemma processImage_rerun (c t : ℚ) (ag : Bool) (md nc nc2 : ℕ)
    (out : List Detection) (hc0 : 0 ≤ c) (hc1 : c < 1)
    (hlen : out.length ≤ md) (hmd : md ≤ 30000)
    (hcls : ∀ d ∈ out, ∃ k : ℕ, k < nc ∧ d.cls = (k : ℚ))
    (hpw : out.Pairwise (fun d e => iou1 (nmsBoxOf ag d) (nmsBoxOf ag e) ≤ t ∧
                                    iou1 (nmsBoxOf ag e) (nmsBoxOf ag d) ≤ t)) :
    processImage c t none ag false [] md nc2 (out.map (reencodeRow nc))
      = out.map confOne := by
  have hgate : gatedRows c nc2 [] (out.map (reencodeRow nc))
      = out.map (reencodeRow nc) := by
    unfold gatedRows
    rw [List.map_nil, List.append_nil]
    apply List.filter_eq_self.mpr
    intro r hr
    rcases List.mem_map.mp hr with ⟨d, -, rfl⟩
    exact decide_eq_true hc1
  have hcand : candidates c none (false && decide (1 < nc2)) (out.map (reencodeRow nc))
      = out.map confOne := by
    unfold candidates
    rw [Bool.false_and]
    simp only [if_neg (Bool.false_ne_true)]
    rw [List.map_map]
    have hfu : out.map (fuseRow ∘ reencodeRow nc) = out.map (reencodeRow nc) := by
      apply List.map_congr_left
      intro d _
      exact fuseRow_reencode nc d
    rw [hfu]
    apply filterMap_map_eq_map
    intro d hd
    obtain ⟨k, hk, hdk⟩ := hcls d hd
    have hcl : (reencodeRow nc d).cls = oneHot nc k := by
      show oneHot nc (Rat.floor d.cls).toNat = oneHot nc k
      rw [hdk, ratFloor_natCast]
    show (let p := maxWithIdx (reencodeRow nc d).cls
      if c < p.1 then
        some (⟨xywh2xyxy (reencodeRow nc d), p.1, (p.2 : ℚ)⟩ : Detection)
      else none) = some (confOne d)
    rw [hcl, maxWithIdx_oneHot nc k hk]
    dsimp only
    rw [if_pos hc1, xywh2xyxy_reencode, ← hdk]
    rfl
  simp only [processImage]
  rw [hgate, hcand]
  by_cases hn : (out.map (reencodeRow nc)).isEmpty = true
  · have hout : out = [] := by
      cases out with
      | nil => rfl
      | cons x xs => simp [List.isEmpty] at hn
    rw [if_pos hn, hout]
    rfl
  · rw [if_neg hn]
    have hone : out ≠ [] := by
      intro hc
      rw [hc] at hn
      exact hn rfl
    have hne2 : ¬ ((out.map confOne).isEmpty = true) := by
      cases out with
      | nil => exact absurd rfl hone
      | cons x xs => simp
    rw [if_neg hne2]
    have hlen2 : ¬ ((out.map confOne).length > 30000) := by
      rw [List.length_map]
      omega
    rw [if_neg hlen2]
    have hnlen : (out.map confOne).length = out.length := List.length_map _ _
    have hboxlen : ((out.map confOne).map (nmsBoxOf ag)).length = out.length := by
      rw [List.length_map, hnlen]
    have hbD : ∀ x, x < out.length →
        ((out.map confOne).map (nmsBoxOf ag)).getD x box0
          = nmsBoxOf ag (out.getD x det0) := by
      intro x hx
      rw [getD_map_of_lt (nmsBoxOf ag) (out.map confOne) x (by omega) box0 det0,
        getD_map_of_lt confOne out x hx det0 det0]
      rfl
    have hsc : ∀ x, x < out.length →
        ((out.map confOne).map (fun d => d.conf)).getD x 0 = 1 := by
      intro x hx
      rw [getD_map_of_lt (fun d => d.conf) (out.map confOne) x (by omega) 0 det0,
        getD_map_of_lt confOne out x hx det0 det0]
      rfl
    have hkeep : nms ((out.map confOne).map (nmsBoxOf ag))
        ((out.map confOne).map (fun d => d.conf)) t = List.range out.length := by
      unfold nms
      have hsort : sortIdxDesc
          (fun i => ((out.map confOne).map (fun d => d.conf)).getD i 0)
          ((out.map confOne).map (nmsBoxOf ag)).length
          = List.range ((out.map confOne).map (nmsBoxOf ag)).length := by
        apply sortIdxDesc_const
        intro i hi j hj
        rw [hboxlen] at hi hj
        rw [hsc i hi, hsc j hj]
      rw [hsort, hboxlen]
      have hall := nmsKeepAux_keep_all
        (fun i => ((out.map confOne).map (nmsBoxOf ag)).getD i box0) t
        (List.range out.length) [] (List.nodup_range out.length)
        (by simp)
        ?_
      · rw [hall]
        rfl
      · intro i hi j hj hne
        have hi' : i < out.length := List.mem_range.mp hi
        have hj' : j < out.length := by
          rcases hj with hj | hj
          · cases hj
          · exact List.mem_range.mp hj
        dsimp only
        rw [hbD j hj', hbD i hi']
        exact pairwise_sym_getD
          (fun d e => iou1 (nmsBoxOf ag d) (nmsBoxOf ag e) ≤ t) out det0 hpw
          j i hj' hi' hne
    rw [hkeep]
    rw [List.take_of_length_le (by simpa using hlen)]
    have hfinal := map_getD_range (out.map confOne) det0
    rw [hnlen] at hfinal
    exact hfinal

/-- **C6.** Re-running `non_max_suppression` on its own per-image output, each
detection re-encoded as a confidence-1 candidate (center-form box, objectness
1, one-hot class), yields the same detections (with confidence 1): no further
suppression occurs because the emitted boxes already satisfy the pairwise
suppression invariant.  Preconditions: `conf_thres < 1` so the confidence-1
candidates pass the strict gate, `max_det ≤ 30000` so the overflow guard
stays idle, and a uniform class count across the prediction tensor. -/
theorem spec_C6 (prediction : List (List RawRow)) (conf_thres iou_thres : ℚ)
    (agnostic : Bool) (max_det : ℕ) (outs : List (List Detection)) (xi : ℕ)
    (hc1 : conf_thres < 1) (hmd : max_det ≤ 30000)
    (hu : ∀ rows ∈ prediction, ∀ r ∈ rows, r.cls.length = predNc prediction)
    (h : non_max_suppression prediction conf_thres iou_thres none agnostic false
      [] max_det = Except.ok outs) :
    non_max_suppression [(outs.getD xi []).map (reencodeRow (predNc prediction))]
      conf_thres iou_thres none agnostic false [] max_det
      = Except.ok [(outs.getD xi []).map confOne] := by
  obtain ⟨⟨hcv, htv⟩, houts⟩ := non_max_suppression_ok prediction conf_thres iou_thres
    none agnostic false [] max_det outs h
  have hout_eq : outs.getD xi [] = (if xi < prediction.length then
      processImage conf_thres iou_thres none agnostic false [] max_det
        (predNc prediction) (prediction.getD xi []) else []) := by
    rw [houts, rangeMap_getD]
    rfl
  have hfacts : (outs.getD xi []).length ≤ max_det ∧
      (∀ d ∈ outs.getD xi [], ∃ k : ℕ, k < predNc prediction ∧ d.cls = (k : ℚ)) ∧
      (outs.getD xi []).Pairwise (fun d e =>
        iou1 (nmsBoxOf agnostic d) (nmsBoxOf agnostic e) ≤ iou_thres ∧
        iou1 (nmsBoxOf agnostic e) (nmsBoxOf agnostic d) ≤ iou_thres) := by
    rw [hout_eq]
    by_cases hx : xi < prediction.length
    · rw [if_pos hx]
      refine ⟨processImage_len_le _ _ _ _ _ _ _ _ _, ?_,
        processImage_pairwise_off _ _ _ _ _ _ _ _ _⟩
      exact processImage_cls_nat conf_thres iou_thres agnostic max_det
        (predNc prediction) (prediction.getD xi []) hcv.1
        (hu (prediction.getD xi []) (getD_mem_of_lt prediction xi hx []))
    · rw [if_neg hx]
      exact ⟨by simp, by simp, List.Pairwise.nil⟩
  obtain ⟨hl, hk, hp⟩ := hfacts
  unfold non_max_suppression
  rw [if_pos hcv, if_pos htv]
  congr 1
  show [processImage conf_thres iou_thres none agnostic false
      (([] : List (List LabelRow)).getD 0 []) max_det
      (predNc [(outs.getD xi []).map (reencodeRow (predNc prediction))])
      ([(outs.getD xi []).map (reencodeRow (predNc prediction))].getD 0 [])]
    = [(outs.getD xi []).map confOne]
  refine congrArg (fun z => [z]) ?_
  exact processImage_rerun conf_thres iou_thres agnostic max_det
    (predNc prediction) _ (outs.getD xi []) hcv.1 hc1 hl hmd hk hp

unseal Rat.add Rat.mul Rat.inv Rat.sub in
/-- Witness for C6 on a concrete one-candidate batch. -/
theorem spec_C6_witness :
    non_max_suppression
      [(([[(⟨⟨8, 8, 12, 12⟩, 18/25, 0⟩ : Detection)]] : List (List Detection)).getD 0
        []).map (reencodeRow (predNc [[(⟨10, 10, 4, 4, 9/10, [4/5]⟩ : RawRow)]]))]
      (1/4) (9/20) none false false [] 300
      = Except.ok [(([[(⟨⟨8, 8, 12, 12⟩, 18/25, 0⟩ : Detection)]] :
          List (List Detection)).getD 0 []).map confOne] := by
  have h : non_max_suppression [[⟨10, 10, 4, 4, 9/10, [4/5]⟩]] (1/4) (9/20) none
      false false [] 300 = Except.ok [[⟨⟨8, 8, 12, 12⟩, 18/25, 0⟩]] := rfl
  exact spec_C6 [[⟨10, 10, 4, 4, 9/10, [4/5]⟩]] (1/4) (9/20) false 300
    [[⟨⟨8, 8, 12, 12⟩, 18/25, 0⟩]] 0 (by norm_num) (by norm_num) (by decide) h
